import Mathlib

/-!
# Verification of the larakit corpus I/O layer

A shallow embedding, in Lean 4, of the core of the `larakit` translation-memory
corpus library: the language-tag parser (`larakit/_lang.py`), the JSON-line
corpus format with trailing footer (`larakit/corpus/_jtm.py` plus
`shell.tail_1`), and the streaming TMX backend (`larakit/corpus/_tmx.py`).

Python strings are modelled as Lean `String`/`List Char`; `str.lower`,
`str.upper` and `str.title`-style case mapping are modelled on the ASCII range
(the code only applies them after an ASCII-alphabet check, except for tag
comparison in the TMX backend, where tags are ASCII in practice); `int` counters
are `Nat` (they only ever grow from 0 by 1); fallible operations return
`Except PyErr`.  The standard-library collaborators the code leans on are
modelled explicitly: `json.dumps`/`json.loads` as an executable
serializer/parser pair over the JSON fragment the codec emits (strings,
non-negative integers, arrays, objects), `collections.Counter` as an
insertion-ordered association list, and file text as a `String` of characters.
-/

namespace Larakit

/-- The error kinds the code can raise, named after §7 of the design
    (`IOError("... not open")`, `ValueError` from tag parsing, etc.).
    `attrNoneWrite` is Python's `AttributeError` from calling `.write` on the
    `None` file handle of a writer that was never opened. -/
inductive PyErr where
  | notOpen
  | attrNoneWrite
  | invalidTag
  | valueError
  | keyError
  | jsonDecodeError
  | missingFooter
deriving DecidableEq, Repr

/-! ## Python character and string helpers -/

/-- `'a' <= c <= 'z' or 'A' <= c <= 'Z'` from `Language._is_alpha`. -/
def pyIsAlphaChar (c : Char) : Bool :=
  ('a' ≤ c && c ≤ 'z') || ('A' ≤ c && c ≤ 'Z')

/-- `'0' <= c <= '9'` from `Language._is_digit`. -/
def pyIsDigitChar (c : Char) : Bool :=
  '0' ≤ c && c ≤ '9'

/-- ASCII model of Python `str.lower` on a single character. -/
def pyLowerChar (c : Char) : Char :=
  if 'A' ≤ c && c ≤ 'Z' then Char.ofNat (c.toNat + 32) else c

/-- ASCII model of Python `str.upper` on a single character. -/
def pyUpperChar (c : Char) : Char :=
  if 'a' ≤ c && c ≤ 'z' then Char.ofNat (c.toNat - 32) else c

/-- The set of characters Python's `str.strip()` removes (`str.isspace`). -/
def pyIsSpaceChar (c : Char) : Bool :=
  c.toNat ∈ [0x09, 0x0A, 0x0B, 0x0C, 0x0D, 0x1C, 0x1D, 0x1E, 0x1F, 0x20,
              0x85, 0xA0, 0x1680, 0x2000, 0x2001, 0x2002, 0x2003, 0x2004,
              0x2005, 0x2006, 0x2007, 0x2008, 0x2009, 0x200A, 0x2028, 0x2029,
              0x202F, 0x205F, 0x3000]

/-- Python `s.strip()` on a character list. -/
def pyStripL (cs : List Char) : List Char :=
  ((cs.dropWhile pyIsSpaceChar).reverse.dropWhile pyIsSpaceChar).reverse

/-- Python `s.strip()`. -/
def pyStrip (s : String) : String :=
  String.mk (pyStripL s.data)

/-- Python `s.lower()` (ASCII model). -/
def pyLower (s : String) : String :=
  String.mk (s.data.map pyLowerChar)

/-- Python `s.startswith(marker)`: a plain prefix test. -/
def strStartsWith (s marker : String) : Bool :=
  marker.data.isPrefixOf s.data

/-! ## `larakit/_lang.py`: the `Language` model -/

/-- `Language.__init__` state: `code` (primary subtag), canonical `tag`,
    optional `region` and `script`.  (`_lang.py` lines 226-235.) -/
structure Language where
  code : String
  tag : String
  region : Option String
  script : Option String
deriving DecidableEq, Repr

/-- `Language._to_title_case`: first character uppercased, rest lowercased.
    Only ever applied to nonempty ASCII-alphabetic chunks. -/
def toTitleCaseL (cs : List Char) : List Char :=
  match cs with
  | [] => []
  | c :: rest => pyUpperChar c :: rest.map pyLowerChar

/-- `Language._parse_language`: a 2- or 3-letter chunk, lowercased. -/
def parseLanguageChunk (cs : List Char) : Option (List Char) :=
  if (cs.length = 2 || cs.length = 3) && cs.all pyIsAlphaChar then
    some (cs.map pyLowerChar)
  else none

/-- `Language._parse_script`: a 4-letter chunk, titlecased. -/
def parseScriptChunk (cs : List Char) : Option (List Char) :=
  if cs.length = 4 && cs.all pyIsAlphaChar then
    some (toTitleCaseL cs)
  else none

/-- `Language._parse_region`: 2 letters uppercased, or 3 digits as-is. -/
def parseRegionChunk (cs : List Char) : Option (List Char) :=
  if cs.length = 2 && cs.all pyIsAlphaChar then
    some (cs.map pyUpperChar)
  else if cs.length = 3 && cs.all pyIsDigitChar then
    some cs
  else none

/-- Python `string.replace('_', '-')` for the single-character pattern:
    character-wise substitution. -/
def underscoreToDash (cs : List Char) : List Char :=
  cs.map (fun c => if c = '_' then '-' else c)

/-- Python `string.split('-')`: `""` splits to `[""]`, separators are not kept,
    adjacent separators produce empty chunks. -/
def splitDash (cs : List Char) : List (List Char) :=
  match cs with
  | [] => [[]]
  | c :: rest =>
    match splitDash rest with
    | [] => [[]]
    | p :: ps => if c = '-' then [] :: p :: ps else (c :: p) :: ps

/-- Python `'-'.join(parts)`. -/
def joinDash (parts : List (List Char)) : List Char :=
  match parts with
  | [] => []
  | [p] => p
  | p :: rest => p ++ '-' :: joinDash rest

/-- The chunk loop of `Language.from_string` (lines 283-306): walk the chunks
    after the primary subtag, greedily recognising a script at position 1 and a
    region at positions 1-2; the first unrecognised chunk sets `skip`
    permanently and everything from it on is appended verbatim. Returns the
    final `(script, region, tag parts)`. -/
def fromStringLoop (chunks : List (List Char)) (i : Nat)
    (script region : Option (List Char)) (skip : Bool) (parts : List (List Char)) :
    Option (List Char) × Option (List Char) × List (List Char) :=
  match chunks with
  | [] => (script, region, parts)
  | chunk :: rest =>
    if skip then
      fromStringLoop rest (i + 1) script region true (parts ++ [chunk])
    else
      match (if i = 1 && script.isNone then parseScriptChunk chunk else none) with
      | some sc => fromStringLoop rest (i + 1) (some sc) region false (parts ++ [sc])
      | none =>
        match (if i ≤ 2 && region.isNone then parseRegionChunk chunk else none) with
        | some rc => fromStringLoop rest (i + 1) script (some rc) false (parts ++ [rc])
        | none => fromStringLoop rest (i + 1) script region true (parts ++ [chunk])

/-- `Language.from_string` (lines 269-312): split on `-`/`_`, require a 2-3
    letter primary subtag, then run the chunk loop; the canonical tag is the
    processed parts joined by `-`. `none` models the `ValueError` raised for an
    empty string or invalid primary subtag. -/
def Language.fromString (s : String) : Option Language :=
  if s.data.isEmpty then none
  else
    match splitDash (underscoreToDash s.data) with
    | [] => none
    | c0 :: rest =>
      match parseLanguageChunk c0 with
      | none => none
      | some code =>
        match fromStringLoop rest 1 none none false [] with
        | (script, region, tailParts) =>
          some { code := String.mk code,
                 tag := String.mk (joinDash (code :: tailParts)),
                 region := region.map String.mk,
                 script := script.map String.mk }

/-- `Language.is_language_only` (line 339). -/
def Language.isLanguageOnly (l : Language) : Bool :=
  l.code == l.tag

/-- Python truthiness of an `Optional[str]`: `None` and `""` are falsy. -/
def optStrTruthy (o : Option String) : Bool :=
  match o with
  | none => false
  | some s => !s.isEmpty

/-- `Language.is_equal_or_more_generic_than` (lines 345-356): the `other`
    argument is always a (truthy) `Language` object here, so the `not other`
    guard is not modelled. -/
def Language.isEqualOrMoreGenericThan (l other : Language) : Bool :=
  if l.code ≠ other.code then false
  else if optStrTruthy l.script && l.script ≠ other.script then false
  else if optStrTruthy l.region && l.region ≠ other.region then false
  else true

/-- `LanguageDirection` (lines 371-418): an ordered pair of `Language`.  The
    lazily-cached `reversed` field is a pure function of the pair and is not
    part of the state. -/
structure LanguageDirection where
  source : Language
  target : Language
deriving DecidableEq, Repr

/-- `LanguageDirection.from_tuple` (lines 391-395): parse both tags. -/
def LanguageDirection.fromTuple (src tgt : String) : Except PyErr LanguageDirection :=
  match Language.fromString src with
  | none => .error .invalidTag
  | some s =>
    match Language.fromString tgt with
    | none => .error .invalidTag
    | some t => .ok { source := s, target := t }

/-- `LanguageDirection.to_json` (lines 401-402): the `(source tag, target tag)`
    pair. -/
def LanguageDirection.toJsonPair (d : LanguageDirection) : String × String :=
  (d.source.tag, d.target.tag)

/-! ## The `json` collaborator

The JSON fragment the codec emits and reads back: strings, non-negative
integers, arrays and objects.  `jdumps` models `json.dumps(...,
ensure_ascii=False, separators=(',', ':'))` — compact separators, control
characters escaped, everything at or above U+0020 emitted verbatim.  `jloads`
models `json.loads` on this fragment (whitespace-tolerant, standard string
escapes including `\uXXXX`, last duplicate object key wins at lookup time). -/

inductive JVal where
  | jstr (s : String)
  | jnum (n : Nat)
  | jarr (items : List JVal)
  | jobj (fields : List (String × JVal))
deriving Inhabited, Repr

/-- A lowercase hexadecimal digit, as `'%x' % n` produces for `n < 16`. -/
def hexDigitChar (n : Nat) : Char :=
  if n < 10 then Char.ofNat (48 + n) else Char.ofNat (87 + n)

/-- One character as `json.dumps` emits it inside a string literal:
    the two-character short escapes for `"`, `\`, and the C0 controls with
    names, `\u00xx` for the remaining controls, everything else verbatim
    (`ensure_ascii=False`). -/
def jsonEscapeChar (c : Char) : List Char :=
  if c = '"' then ['\\', '"']
  else if c = '\\' then ['\\', '\\']
  else if c = '\n' then ['\\', 'n']
  else if c = '\r' then ['\\', 'r']
  else if c = '\t' then ['\\', 't']
  else if c.toNat = 8 then ['\\', 'b']
  else if c.toNat = 12 then ['\\', 'f']
  else if c.toNat < 32 then
    ['\\', 'u', '0', '0', hexDigitChar (c.toNat / 16), hexDigitChar (c.toNat % 16)]
  else [c]

/-- The decimal digits of `n`, most significant first. -/
def natDecimalChars (n : Nat) : List Char :=
  if _h : n < 10 then [Char.ofNat (48 + n)]
  else natDecimalChars (n / 10) ++ [Char.ofNat (48 + n % 10)]
termination_by n
decreasing_by exact Nat.div_lt_self (by omega) (by omega)

/-- A JSON string literal: quote, escaped body, quote. -/
def jsonStringChars (s : String) : List Char :=
  '"' :: (s.data.flatMap jsonEscapeChar ++ ['"'])

mutual
/-- `json.dumps` with `separators=(',', ':')` and `ensure_ascii=False`, as a
    character list. -/
def jdumpsChars : JVal → List Char
  | .jstr s => jsonStringChars s
  | .jnum n => natDecimalChars n
  | .jarr items => '[' :: (jdumpsItems items ++ [']'])
  | .jobj fields => '{' :: (jdumpsFields fields ++ ['}'])

def jdumpsItems : List JVal → List Char
  | [] => []
  | [x] => jdumpsChars x
  | x :: rest => jdumpsChars x ++ ',' :: jdumpsItems rest

def jdumpsFields : List (String × JVal) → List Char
  | [] => []
  | [(k, v)] => jsonStringChars k ++ ':' :: jdumpsChars v
  | (k, v) :: rest => jsonStringChars k ++ ':' :: jdumpsChars v ++ ',' :: jdumpsFields rest
end

/-- `json.dumps` as a `String`. -/
def jdumps (j : JVal) : String :=
  String.mk (jdumpsChars j)

/-- The whitespace `json.loads` skips between tokens. -/
def jsonWsChar (c : Char) : Bool :=
  c = ' ' || c = '\t' || c = '\n' || c = '\r'

/-- Skip inter-token whitespace. -/
def dropJsonWs (cs : List Char) : List Char :=
  cs.dropWhile jsonWsChar

/-- The value of a hexadecimal digit character, if it is one. -/
def hexCharVal (c : Char) : Option Nat :=
  if '0' ≤ c && c ≤ '9' then some (c.toNat - 48)
  else if 'a' ≤ c && c ≤ 'f' then some (c.toNat - 87)
  else if 'A' ≤ c && c ≤ 'F' then some (c.toNat - 55)
  else none

/-- The single-character JSON escapes `json.loads` accepts. -/
def jsonUnescapeChar (c : Char) : Option Char :=
  if c = '"' then some '"'
  else if c = '\\' then some '\\'
  else if c = '/' then some '/'
  else if c = 'b' then some (Char.ofNat 8)
  else if c = 'f' then some (Char.ofNat 12)
  else if c = 'n' then some '\n'
  else if c = 'r' then some '\r'
  else if c = 't' then some '\t'
  else none

/-- The body of a JSON string literal after the opening quote: plain characters
    until the closing quote, with backslash escapes (`\uXXXX` taken as one code
    unit; the codec never emits surrogate pairs since `ensure_ascii=False`
    leaves non-ASCII verbatim). -/
def parseJsonString (acc : List Char) : List Char → Option (String × List Char)
  | [] => none
  | c :: rest =>
    if c = '"' then some (String.mk acc.reverse, rest)
    else if c = '\\' then
      match rest with
      | [] => none
      | e :: rest2 =>
        if e = 'u' then
          match rest2 with
          | a :: b :: c2 :: d :: rest3 =>
            match hexCharVal a, hexCharVal b, hexCharVal c2, hexCharVal d with
            | some va, some vb, some vc, some vd =>
              parseJsonString (Char.ofNat (((va * 16 + vb) * 16 + vc) * 16 + vd) :: acc) rest3
            | _, _, _, _ => none
          | _ => none
        else
          match jsonUnescapeChar e with
          | some x => parseJsonString (x :: acc) rest2
          | none => none
    else parseJsonString (c :: acc) rest

/-- The longest leading run of decimal digits, and the remainder. -/
def spanDigits : List Char → List Char × List Char
  | [] => ([], [])
  | c :: rest =>
    if pyIsDigitChar c then
      match spanDigits rest with
      | (ds, r) => (c :: ds, r)
    else ([], c :: rest)

/-- The number a digit run denotes. -/
def digitsToNat (ds : List Char) : Nat :=
  ds.foldl (fun a c => a * 10 + (c.toNat - 48)) 0

mutual
/-- `json.loads`, restricted to the emitted fragment: leading whitespace, then
    a string, a non-negative integer, an array or an object.  `fuel` only
    bounds the recursion; `jloads` passes enough for any input it is given. -/
def parseJsonVal (fuel : Nat) (cs : List Char) : Option (JVal × List Char) :=
  match fuel with
  | 0 => none
  | fuel + 1 =>
    match dropJsonWs cs with
    | [] => none
    | c :: rest =>
      if c = '"' then
        match parseJsonString [] rest with
        | some (s, r) => some (.jstr s, r)
        | none => none
      else if c = '[' then
        match dropJsonWs rest with
        | ']' :: r => some (.jarr [], r)
        | cs2 =>
          match parseJsonItems fuel cs2 with
          | some (xs, r) => some (.jarr xs, r)
          | none => none
      else if c = '{' then
        match dropJsonWs rest with
        | '}' :: r => some (.jobj [], r)
        | cs2 =>
          match parseJsonFields fuel cs2 with
          | some (fs, r) => some (.jobj fs, r)
          | none => none
      else if pyIsDigitChar c then
        match spanDigits (c :: rest) with
        | (ds, r) => some (.jnum (digitsToNat ds), r)
      else none

/-- One-or-more comma-separated array items, consuming the closing `]`. -/
def parseJsonItems (fuel : Nat) (cs : List Char) : Option (List JVal × List Char) :=
  match fuel with
  | 0 => none
  | fuel + 1 =>
    match parseJsonVal fuel cs with
    | none => none
    | some (v, r) =>
      match dropJsonWs r with
      | ',' :: r2 =>
        match parseJsonItems fuel r2 with
        | some (vs, r3) => some (v :: vs, r3)
        | none => none
      | ']' :: r2 => some ([v], r2)
      | _ => none

/-- One-or-more `"key": value` object members, consuming the closing `}`. -/
def parseJsonFields (fuel : Nat) (cs : List Char) :
    Option (List (String × JVal) × List Char) :=
  match fuel with
  | 0 => none
  | fuel + 1 =>
    match dropJsonWs cs with
    | '"' :: r =>
      match parseJsonString [] r with
      | none => none
      | some (k, r1) =>
        match dropJsonWs r1 with
        | ':' :: r2 =>
          match parseJsonVal fuel r2 with
          | none => none
          | some (v, r3) =>
            match dropJsonWs r3 with
            | ',' :: r4 =>
              match parseJsonFields fuel r4 with
              | some (fs, r5) => some ((k, v) :: fs, r5)
              | none => none
            | '}' :: r4 => some ([(k, v)], r4)
            | _ => none
        | _ => none
    | _ => none
end

/-- `json.loads`: parse one document, allow trailing whitespace, reject
    anything further (Python's `Extra data` error). -/
def jloads (s : String) : Option JVal :=
  match parseJsonVal (s.data.length + 1) s.data with
  | some (j, rest) => if (dropJsonWs rest).isEmpty then some j else none
  | none => none

/-- Python `dict` lookup for an object built from a member list: the last
    occurrence of a duplicated key wins. -/
def jGet (fields : List (String × JVal)) (key : String) : Option JVal :=
  fields.foldl (fun acc kv => if kv.1 = key then some kv.2 else acc) none

/-! ## `larakit/corpus/_base.py`: `Properties` and `TranslationUnit` -/

/-- A `Properties` value at one key: a single string, or the list a repeated
    `put` promotes it to. -/
inductive PropVal where
  | one (s : String)
  | many (ss : List String)
deriving DecidableEq, Repr

/-- `Properties` (`_base.py` lines 7-83): an insertion-ordered `dict` from key
    to string-or-list-of-strings. -/
def Properties : Type := List (String × PropVal)

instance : DecidableEq Properties := by
  unfold Properties
  infer_instance

/-- `Properties.put` (lines 23-30): absent key appends a single value; a single
    value is promoted to a two-element list; a list gets the value appended.
    Insertion order of keys is preserved (Python `dict`). -/
def Properties.put (p : Properties) (key value : String) : Properties :=
  match p with
  | [] => [(key, .one value)]
  | (k, v) :: rest =>
    if k = key then
      match v with
      | .one s => (k, .many [s, value]) :: rest
      | .many ss => (k, .many (ss ++ [value])) :: rest
    else (k, v) :: Properties.put rest key value

/-- The JSON form of a `Properties.map` as `json.dumps` sees it. -/
def Properties.toJson (p : Properties) : JVal :=
  .jobj (p.map (fun kv =>
    (kv.1, match kv.2 with
           | .one s => JVal.jstr s
           | .many ss => JVal.jarr (ss.map JVal.jstr))))

/-- `TranslationUnit` (`_base.py` lines 86-166).  `properties` is kept in JSON
    form: the Python field holds either a `Properties` (caller-built units) or
    the raw decoded mapping (`from_json` stores `json_data.get("properties")`
    unconverted); both serialize to the same JSON and equality/hash ignore the
    field entirely (lines 155-163). -/
structure TranslationUnit where
  language : LanguageDirection
  sentence : String
  translation : String
  tuid : Option String := none
  creationDate : Option String := none
  changeDate : Option String := none
  properties : Option JVal := none

/-- `TranslationUnit.__eq__` (lines 155-160): equality on everything except
    `properties`. -/
def tuEq (a b : TranslationUnit) : Prop :=
  a.tuid = b.tuid ∧ a.language = b.language ∧ a.sentence = b.sentence ∧
    a.translation = b.translation ∧ a.creationDate = b.creationDate ∧
    a.changeDate = b.changeDate

/-- `TranslationUnit.to_json` (lines 139-153): the required keys in insertion
    order, then each optional key only when present. -/
def TranslationUnit.toJson (tu : TranslationUnit) : JVal :=
  .jobj ([("language", JVal.jarr [.jstr tu.language.source.tag, .jstr tu.language.target.tag]),
          ("sentence", JVal.jstr tu.sentence),
          ("translation", JVal.jstr tu.translation)]
    ++ (match tu.tuid with | none => [] | some s => [("tuid", JVal.jstr s)])
    ++ (match tu.creationDate with | none => [] | some s => [("creationDate", JVal.jstr s)])
    ++ (match tu.changeDate with | none => [] | some s => [("changeDate", JVal.jstr s)])
    ++ (match tu.properties with | none => [] | some j => [("properties", j)]))

/-- `TranslationUnit.from_json` (lines 104-109): `json_data['language']` must be
    a two-string array (`KeyError` when absent, `ValueError`/`InvalidTag` from
    `LanguageDirection.from_tuple`); `sentence`/`translation` are required;
    the optional keys use `.get`; `properties` is stored raw. -/
def TranslationUnit.fromJson (j : JVal) : Except PyErr TranslationUnit :=
  match j with
  | .jobj fields =>
    match jGet fields "language" with
    | none => .error .keyError
    | some langJson =>
      match langJson with
      | .jarr [.jstr src, .jstr tgt] =>
        match LanguageDirection.fromTuple src tgt with
        | .error e => .error e
        | .ok dir =>
          match jGet fields "sentence", jGet fields "translation" with
          | some (.jstr sentence), some (.jstr translation) =>
            let optStr : Option JVal → Option String := fun o =>
              match o with
              | some (.jstr s) => some s
              | _ => none
            .ok { language := dir, sentence := sentence, translation := translation,
                  tuid := optStr (jGet fields "tuid"),
                  creationDate := optStr (jGet fields "creationDate"),
                  changeDate := optStr (jGet fields "changeDate"),
                  properties := jGet fields "properties" }
          | _, _ => .error .keyError
      | _ => .error .valueError
  | _ => .error .valueError

/-! ## `collections.Counter[LanguageDirection]`

Keys compare by `LanguageDirection.__eq__`, i.e. by the `(source tag, target
tag)` pair, so the writer's counter is modelled as an insertion-ordered
association list keyed by that pair; `counter[k] += 1` bumps an existing entry
in place or appends a new one at the end (Python `dict` order). -/

/-- The tag pair a `TranslationUnit`'s direction hashes and compares by. -/
def tagPair (tu : TranslationUnit) : String × String :=
  tu.language.toJsonPair

/-- ordered counter: `counter[k] += 1`. -/
def counterBump (c : List ((String × String) × Nat)) (k : String × String) :
    List ((String × String) × Nat) :=
  match c with
  | [] => [(k, 1)]
  | (k0, n) :: rest =>
    if k0 = k then (k0, n + 1) :: rest
    else (k0, n) :: counterBump rest k

/-- `Counter[key]`: the stored count, or 0. -/
def counterGet (c : List ((String × String) × Nat)) (k : String × String) : Nat :=
  match c with
  | [] => 0
  | (k0, n) :: rest => if k0 = k then n else counterGet rest k

/-- `Counter.total()`. -/
def counterTotal (c : List ((String × String) × Nat)) : Nat :=
  (c.map (·.2)).sum

/-- The counter accumulated by writing `tus` in order. -/
def countAll (tus : List TranslationUnit) : List ((String × String) × Nat) :=
  tus.foldl (fun c tu => counterBump c (tagPair tu)) []

/-! ## `larakit/corpus/_jtm.py`: footer, writer, reader -/

/-- `JTMCorpus.Footer.FOOTER_LINE_BEGIN`. -/
def footerMarker : String := ".footer"

/-- `Footer.to_json` (lines 95-101): the counter as `[[tag pair, count], ...]`
    in insertion order, plus `properties` only when a `Properties` object is
    attached (any non-`None` object is truthy, even an empty one). -/
def footerToJson (counter : List ((String × String) × Nat))
    (props : Option Properties) : JVal :=
  .jobj ([("counter", JVal.jarr (counter.map (fun kn =>
            JVal.jarr [JVal.jarr [.jstr kn.1.1, .jstr kn.1.2], .jnum kn.2])))]
    ++ (match props with
        | none => []
        | some p => [("properties", p.toJson)]))

/-- `Footer.__str__` (line 104): the marker immediately followed by the compact
    JSON dump. -/
def footerLineStr (counter : List ((String × String) × Nat))
    (props : Option Properties) : String :=
  footerMarker ++ jdumps (footerToJson counter props)

/-- One record line: `json.dumps(tu.to_json(), ensure_ascii=False,
    separators=(',', ':'))` (`JTMWriter.write`, line 55); the trailing `'\n'`
    is added when the file text is assembled. -/
def recordLine (tu : TranslationUnit) : String :=
  jdumps tu.toJson

/-- The lines an opened `JTMWriter` has produced once its scope exits after
    writing `tus` in order: the record lines, then exactly one footer line
    (`__exit__`, lines 43-45). -/
def jtmWrittenLines (tus : List TranslationUnit) (props : Option Properties) :
    List String :=
  tus.map recordLine ++ [footerLineStr (countAll tus) props]

/-- The file text of a list of lines, each terminated by `'\n'`. -/
def fileText (lines : List String) : String :=
  String.mk ((lines.map (fun l => l.data ++ ['\n'])).flatten)

/-- One line through `TranslationUnit.from_json(json.loads(line))`
    (`JTMReader.__iter__`, line 26). -/
def jtmLoadLine (line : String) : Except PyErr TranslationUnit :=
  match jloads line with
  | none => .error .jsonDecodeError
  | some j => TranslationUnit.fromJson j

/-- The loop body of `JTMReader.__iter__` (lines 24-26): skip every line that
    starts with the footer marker, parse every other line as a record, in file
    order. -/
def jtmIterLines : List String → Except PyErr (List TranslationUnit)
  | [] => .ok []
  | line :: rest =>
    if strStartsWith line footerMarker then jtmIterLines rest
    else
      match jtmLoadLine line with
      | .error e => .error e
      | .ok tu =>
        match jtmIterLines rest with
        | .error e => .error e
        | .ok tus => .ok (tu :: tus)

/-- `JTMReader.__iter__` including the open check (lines 21-22): a reader that
    was never opened has `_file is None` and raises `IOError`. -/
def jtmReaderIter (file : Option (List String)) :
    Except PyErr (List TranslationUnit) :=
  match file with
  | none => .error .notOpen
  | some lines => jtmIterLines lines

/-- An open `JTMWriter`'s mutable state: the record lines written so far, the
    per-direction counter, the attached properties.  `file = none` models a
    writer that was never opened (`__enter__` not called). -/
structure JTMWriterState where
  file : Option (List String)
  counter : List ((String × String) × Nat)
  props : Option Properties

/-- `JTMWriter.write` (lines 53-55): the counter is incremented first; then
    `self._file.write(...)` — with no open check, so an unopened writer fails
    with `AttributeError` (`None` has no `write`), not `IOError`. -/
def jtmWriterWrite (st : JTMWriterState) (tu : TranslationUnit) :
    Except PyErr JTMWriterState :=
  let counter := counterBump st.counter (tagPair tu)
  match st.file with
  | none => .error .attrNoneWrite
  | some lines =>
    .ok { st with counter := counter, file := some (lines ++ [recordLine tu]) }

/-- `JTMWriter.__exit__` (lines 43-45): whatever the exception argument is
    (`None` on clean exit), append exactly one footer line and close.  Returns
    the final file lines. -/
def jtmWriterExit (st : JTMWriterState) (_exc : Option PyErr) : List String :=
  match st.file with
  | none => []
  | some lines => lines ++ [footerLineStr st.counter st.props]

/-- `Footer.parse` (lines 67-73): require the marker, strip the remainder,
    `json.loads` it; a line without the marker is the `MissingFooter` failure. -/
def footerParseLine (line : String) : Except PyErr JVal :=
  if strStartsWith line footerMarker then
    match jloads (pyStrip (String.mk (line.data.drop footerMarker.length))) with
    | none => .error .jsonDecodeError
    | some j => .ok j
  else .error .missingFooter

/-- The parsed form of a footer: the counter with re-parsed directions, and the
    optional properties JSON. -/
structure Footer where
  counter : List (LanguageDirection × Nat)
  propsJson : Option JVal

/-- Insert into the `Counter(dict-comprehension)` of `Footer.from_json`:
    a repeated direction replaces the value at its original position. -/
def footerDictInsert (acc : List (LanguageDirection × Nat))
    (d : LanguageDirection) (n : Nat) : List (LanguageDirection × Nat) :=
  match acc with
  | [] => [(d, n)]
  | (d0, n0) :: rest =>
    if d0.toJsonPair = d.toJsonPair then (d0, n) :: rest
    else (d0, n0) :: footerDictInsert rest d n

/-- One counter entry of `Footer.from_json` (lines 77-78): it must be a
    `[[src, tgt], count]` pair whose tags parse. -/
def footerCounterStep (acc : List (LanguageDirection × Nat)) (item : JVal) :
    Except PyErr (List (LanguageDirection × Nat)) :=
  match item with
  | .jarr [.jarr [.jstr src, .jstr tgt], .jnum n] =>
    match LanguageDirection.fromTuple src tgt with
    | .error e => .error e
    | .ok d => .ok (footerDictInsert acc d n)
  | _ => .error .valueError

/-- The counter entries of `Footer.from_json`. -/
def footerCounterFromJson (items : List JVal) :
    Except PyErr (List (LanguageDirection × Nat)) :=
  items.foldlM footerCounterStep []

/-- `Footer.from_json` (lines 76-82): `data.get("counter", [])` re-parsed into
    directions; `properties` kept in JSON form (`None` when absent or falsy,
    i.e. an empty mapping). -/
def footerFromJson (j : JVal) : Except PyErr Footer :=
  match j with
  | .jobj fields =>
    let counterItems :=
      match jGet fields "counter" with
      | some (.jarr items) => items
      | _ => []
    match footerCounterFromJson counterItems with
    | .error e => .error e
    | .ok counter =>
      let propsJson :=
        match jGet fields "properties" with
        | some (.jobj fs) => if fs.isEmpty then none else some (JVal.jobj fs)
        | _ => none
      .ok { counter := counter, propsJson := propsJson }
  | _ => .error .valueError

/-- `Footer.parse` end to end. -/
def footerParse (line : String) : Except PyErr Footer :=
  match footerParseLine line with
  | .error e => .error e
  | .ok j => footerFromJson j

/-- `Counter[direction]` on a parsed footer: lookup by direction equality,
    which is tag-pair equality. -/
def footerCount (f : Footer) (p : String × String) : Nat :=
  match f.counter.find? (fun dn => dn.1.toJsonPair = p) with
  | some dn => dn.2
  | none => 0

/-- `Footer.get_total_count` (lines 92-93). -/
def footerTotal (f : Footer) : Nat :=
  (f.counter.map (·.2)).sum

/-! ## `larakit/shell.py`: `tail_1`

The file is modelled as its character sequence (newlines are one byte in UTF-8
and multi-byte sequences never contain `0x0A`, so the extracted last line is
the same whether the window is counted in bytes or characters).  The loop works
on the reversed sequence, where "the last `w` characters" is `take w` and
"strip trailing newlines" is `dropWhile`. -/

/-- The window loop of `tail_1` (lines 106-115), on the reversed content:
    read the final `w` characters, strip trailing newlines; if a newline
    remains in the window, the last line is everything after it; if the window
    already covers the file, the stripped window is the whole answer; otherwise
    double the window and re-seek. -/
def tail1Rev (rl : List Char) (w : Nat) (hw : 0 < w) : List Char :=
  if ((rl.take w).dropWhile (fun c => c = '\n')).contains '\n' then
    ((rl.take w).dropWhile (fun c => c = '\n')).takeWhile (fun c => c ≠ '\n')
  else if h : rl.length ≤ w then (rl.take w).dropWhile (fun c => c = '\n')
  else tail1Rev rl (2 * w) (by omega)
termination_by rl.length - w
decreasing_by simp only [not_le] at h; omega

/-- `shell.tail_1` (lines 101-115): the fixed initial window is 1024. -/
def tail1 (content : String) : String :=
  String.mk ((tail1Rev content.data.reverse 1024 (by omega)).reverse)

/-- The specification-side "last complete line": the characters after the final
    newline, ignoring trailing newlines. -/
def lastLineSpec (content : String) : String :=
  String.mk (((content.data.reverse.dropWhile (fun c => c = '\n')).takeWhile
    (fun c => c ≠ '\n')).reverse)

/-- `JTMCorpus._parse_footer` for an existing file (lines 134-139): decode the
    tail line and `Footer.parse` it. -/
def jtmParseFooterOfFile (content : String) : Except PyErr Footer :=
  footerParse (tail1 content)

/-! ## `larakit/corpus/_tmx.py`: the TMX backend

The reader is driven by `xml.etree.ElementTree.iterparse` start/end events; an
event stream is modelled as a list of `XmlEvent`s, an end event carrying the
element's attributes and its `"".join(elem.itertext())` text.  The XML parser
itself (expat) is external; `xmlCharAllowed` models its character acceptance
(the `Char` production of XML 1.0): a document containing a raw disallowed
character, or a numeric character reference to one, is rejected before any
`_tmx.py` code sees an event. -/

/-- The characters XML 1.0 permits (`Char ::= #x9 | #xA | #xD | [#x20-#xD7FF] |
    [#xE000-#xFFFD] | [#x10000-#x10FFFF]`); expat rejects a document containing
    any other code point, raw or as `&#x...;`. -/
def xmlCharAllowed (n : Nat) : Bool :=
  n = 0x9 || n = 0xA || n = 0xD || (0x20 ≤ n && n ≤ 0xD7FF) ||
    (0xE000 ≤ n && n ≤ 0xFFFD) || (0x10000 ≤ n && n ≤ 0x10FFFF)

/-- `_local_name` (lines 10-15): strip a `{namespace}` qualifier. -/
def localName (tag : String) : String :=
  match tag.data with
  | '{' :: rest => String.mk (((('{' :: rest).dropWhile (fun c => c ≠ '}')).drop 1))
  | _ => tag

/-- Attribute lookup (`elem.attrib.get(k)`); ElementTree attribute keys are
    unique. -/
def attrGet (attrs : List (String × String)) (k : String) : Option String :=
  (attrs.find? (fun kv => kv.1 = k)).map (·.2)

/-- Python `a or b` on two `Optional[str]`: the first operand unless it is
    `None` or empty. -/
def pyOrOptStr (a b : Option String) : Option String :=
  if optStrTruthy a then a else b

/-- The namespaced key ElementTree reports `xml:lang` under. -/
def xmlLangKey : String := "\x7bhttp://www.w3.org/XML/1998/namespace\x7dlang"

/-- `_get_lang` (lines 18-19). -/
def getLangAttr (attrs : List (String × String)) : Option String :=
  pyOrOptStr (attrGet attrs xmlLangKey) (attrGet attrs "lang")

/-- `_normalize_segment` (lines 22-23): every newline becomes a space, then
    `strip()`. -/
def normalizeSegment (s : String) : String :=
  pyStrip (String.mk (s.data.map (fun c => if c = '\n' then ' ' else c)))

/-- `_is_equal_or_more_generic` (lines 30-34). -/
def isEqualOrMoreGenericStr (a b : String) : Bool :=
  pyLower a == pyLower b || strStartsWith (pyLower b) (pyLower a ++ "-")

/-- `_is_equal_or_more_specific` (lines 37-41). -/
def isEqualOrMoreSpecificStr (a b : String) : Bool :=
  pyLower a == pyLower b || strStartsWith (pyLower a) (pyLower b ++ "-")

/-- One `iterparse` event.  End events carry the element's attributes and its
    accumulated text. -/
inductive XmlEvent where
  | startEv (tag : String) (attrs : List (String × String))
  | endEv (tag : String) (attrs : List (String × String)) (text : String)

/-- The per-`<tuv>` accumulator (lines 95-100). -/
structure TuvData where
  lang : Option String
  creationdate : Option String
  changedate : Option String
  text : Option String

/-- The per-`<tu>` attribute snapshot (lines 85-90). -/
structure TuAttrs where
  tuid : Option String := none
  srclang : Option String := none
  creationdate : Option String := none
  changedate : Option String := none

/-- The reader's mutable iteration state. -/
structure TMXIterState where
  stack : List String := []
  headerSrclang : Option String := none
  headerProps : Properties := []
  tuAttrs : TuAttrs := {}
  tuProps : Option Properties := none
  tuvCurrent : Option TuvData := none
  tuvs : List TuvData := []

/-- The guard `t["lang"] and ...` each selection scan applies to a variant. -/
def tuvLangPred (p : String → Bool) (t : TuvData) : Bool :=
  match t.lang with
  | none => false
  | some lg => !lg.isEmpty && p lg

/-- The source-variant index scans of `TMXReader.__iter__` (lines 135-153),
    given a truthy candidate source language: (1) first case-insensitive exact
    tag match; (2) first variant the candidate is a generic prefix of; (3)
    first variant whose tag is `_is_equal_or_more_specific` than the candidate
    — the same relation pass (2) already tested, arguments swapped. -/
def selectSrcIdx (sl : String) (tuvs : List TuvData) : Option Nat :=
  match tuvs.findIdx? (tuvLangPred (fun lg => pyLower lg == pyLower sl)) with
  | some i => some i
  | none =>
    match tuvs.findIdx? (tuvLangPred (fun lg => isEqualOrMoreGenericStr sl lg)) with
    | some i => some i
    | none => tuvs.findIdx? (tuvLangPred (fun lg => isEqualOrMoreSpecificStr lg sl))

/-- The record loop over the non-source variants (lines 161-173): skip a
    variant without a language or text (or when the source has no text), parse
    the tag pair — a malformed tag is a hard failure — and emit one record per
    remaining variant, in order. -/
def tuvRecords (srcTuv : TuvData) (rest : List TuvData) (tuAttrs : TuAttrs)
    (tuProps : Option Properties) : Except PyErr (List TranslationUnit) :=
  match rest with
  | [] => .ok []
  | t :: more =>
    if !optStrTruthy t.lang || t.text = none || srcTuv.text = none then
      tuvRecords srcTuv more tuAttrs tuProps
    else
      match srcTuv.lang, t.lang with
      | some srcTag, some tgtTag =>
        match LanguageDirection.fromTuple srcTag tgtTag with
        | .error e => .error e
        | .ok dir =>
          match tuvRecords srcTuv more tuAttrs tuProps with
          | .error e => .error e
          | .ok tus =>
            .ok ({ language := dir,
                   sentence := (srcTuv.text).getD "",
                   translation := (t.text).getD "",
                   tuid := tuAttrs.tuid,
                   creationDate := pyOrOptStr t.creationdate tuAttrs.creationdate,
                   changeDate := pyOrOptStr t.changedate tuAttrs.changedate,
                   properties := (tuProps.map Properties.toJson) } :: tus)
      | _, _ => .error .invalidTag

/-- The `</tu>` handler (lines 129-173): with at least two collected variants,
    pick the candidate source tag (`tu`'s `srclang`, else the header's, else
    the first variant's), select the source variant (falling back to index 0),
    remove it, and emit one record per remaining variant. -/
def processTuEnd (st : TMXIterState) : Except PyErr (List TranslationUnit) :=
  if st.tuvs.length ≥ 2 then
    let sourceLang := pyOrOptStr st.tuAttrs.srclang st.headerSrclang
    let sourceLang :=
      if optStrTruthy sourceLang then sourceLang
      else (st.tuvs.head?.bind (·.lang))
    let srcIdx :=
      match sourceLang with
      | some sl => if sl.isEmpty then none else selectSrcIdx sl st.tuvs
      | none => none
    let srcIdx := srcIdx.getD 0
    match st.tuvs.get? srcIdx with
    | none => .ok []
    | some srcTuv =>
      tuvRecords srcTuv (st.tuvs.eraseIdx srcIdx) st.tuAttrs st.tuProps
  else .ok []

/-- The event loop of `TMXReader.__iter__` (lines 75-183), returning the
    records in yield order (a failure discards the whole iteration). -/
def tmxProcessEvents : List XmlEvent → TMXIterState →
    Except PyErr (List TranslationUnit)
  | [], _ => .ok []
  | ev :: rest, st =>
    match ev with
    | .startEv rawTag attrs =>
      let tag := localName rawTag
      let st := { st with stack := tag :: st.stack }
      if tag = "header" then
        tmxProcessEvents rest
          { st with headerSrclang := pyOrOptStr (attrGet attrs "srclang") st.headerSrclang }
      else if tag = "tu" then
        tmxProcessEvents rest
          { st with tuAttrs := { tuid := attrGet attrs "tuid",
                                 srclang := attrGet attrs "srclang",
                                 creationdate := attrGet attrs "creationdate",
                                 changedate := attrGet attrs "changedate" },
                    tuProps := some [],
                    tuvs := [] }
      else if tag = "tuv" then
        tmxProcessEvents rest
          { st with tuvCurrent := some { lang := getLangAttr attrs,
                                         creationdate := attrGet attrs "creationdate",
                                         changedate := attrGet attrs "changedate",
                                         text := none } }
      else tmxProcessEvents rest st
    | .endEv rawTag attrs text =>
      let tag := localName rawTag
      let parent := st.stack.tail.head?
      let stPopped : TMXIterState → TMXIterState := fun s => { s with stack := s.stack.tail }
      if tag = "prop" then
        match attrGet attrs "type" with
        | some propType =>
          if propType.isEmpty then tmxProcessEvents rest (stPopped st)
          else if parent = some "header" then
            tmxProcessEvents rest
              (stPopped { st with headerProps := st.headerProps.put propType text })
          else if parent = some "tu" then
            match st.tuProps with
            | some p =>
              tmxProcessEvents rest (stPopped { st with tuProps := some (p.put propType text) })
            | none => tmxProcessEvents rest (stPopped st)
          else tmxProcessEvents rest (stPopped st)
        | none => tmxProcessEvents rest (stPopped st)
      else if tag = "seg" then
        if parent = some "tuv" then
          match st.tuvCurrent with
          | some tc =>
            tmxProcessEvents rest
              (stPopped { st with tuvCurrent := some { tc with text := some (normalizeSegment text) } })
          | none => tmxProcessEvents rest (stPopped st)
        else tmxProcessEvents rest (stPopped st)
      else if tag = "tuv" then
        match st.tuvCurrent with
        | none => tmxProcessEvents rest (stPopped { st with tuvCurrent := none })
        | some tc =>
          if optStrTruthy tc.lang then
            tmxProcessEvents rest
              (stPopped { st with tuvs := st.tuvs ++ [tc], tuvCurrent := none })
          else tmxProcessEvents rest (stPopped { st with tuvCurrent := none })
      else if tag = "tu" then
        match processTuEnd st with
        | .error e => .error e
        | .ok records =>
          match tmxProcessEvents rest
              (stPopped { st with tuAttrs := {}, tuProps := none, tuvs := [] }) with
          | .error e => .error e
          | .ok tus => .ok (records ++ tus)
      else tmxProcessEvents rest (stPopped st)

/-- `TMXReader.__iter__` including the open check (lines 63-64). -/
def tmxReaderIter (file : Option (List XmlEvent)) :
    Except PyErr (List TranslationUnit) :=
  match file with
  | none => .error .notOpen
  | some events => tmxProcessEvents events {}

/-! ### The TMX writer -/

/-- `xml.sax.saxutils.escape`. -/
def xmlEscape (s : String) : String :=
  String.mk (s.data.flatMap (fun c =>
    if c = '&' then "&amp;".data
    else if c = '<' then "&lt;".data
    else if c = '>' then "&gt;".data
    else [c]))

/-- `_attr_escape` (lines 26-27): `escape` plus `"` → `&quot;`. -/
def attrEscape (s : String) : String :=
  String.mk (s.data.flatMap (fun c =>
    if c = '&' then "&amp;".data
    else if c = '<' then "&lt;".data
    else if c = '>' then "&gt;".data
    else if c = '"' then "&quot;".data
    else [c]))

/-- The `<prop>` lines a `Properties` mapping produces (writer lines 267-271):
    keys in order, each value on its own line. -/
def propLines (indent : String) (p : Properties) : String :=
  String.join (p.map (fun kv =>
    let vals : List String :=
      match kv.2 with
      | .one s => [s]
      | .many ss => ss
    String.join (vals.map (fun v =>
      indent ++ "<prop type=\"" ++ attrEscape kv.1 ++ "\">" ++ xmlEscape v ++ "</prop>\n"))))

/-- `TMXWriter._write_header` (lines 253-275): prolog, root, header element
    with fixed attributes plus `srclang` when truthy, header properties, then
    the opening `<body>`. -/
def tmxHeaderText (srclang : Option String) (props : Option Properties) : String :=
  "<?xml version=\"1.0\" encoding=\"UTF-8\"?>\n" ++
  "<tmx version=\"1.4\">\n" ++
  "  <header datatype=\"plaintext\" o-tmf=\"LaraKit\" segtype=\"sentence\" adminlang=\"en\"" ++
  (match srclang with
   | some sl => if sl.isEmpty then "" else " srclang=\"" ++ attrEscape sl ++ "\""
   | none => "") ++
  ">\n" ++
  (match props with
   | some p => propLines "    " p
   | none => "") ++
  "  </header>\n  <body>\n"

/-- `TMXWriter._write_tuv` (lines 277-282): the segment is normalized (newlines
    collapsed to spaces) before being written. -/
def tmxTuvText (lang : Option String) (segment : String) : String :=
  let segText := normalizeSegment segment
  let lg := match lang with | none => "" | some l => l
  "      <tuv xml:lang=\"" ++ attrEscape lg ++ "\"><seg>" ++ xmlEscape segText ++ "</seg></tuv>\n"

/-- The `<prop>` lines of a record's properties (writer lines 241-245); the
    JSON form of a `Properties` mapping is iterated the same way. -/
def tuPropLines (j : JVal) : String :=
  match j with
  | .jobj fields =>
    String.join (fields.map (fun kv =>
      let vals : List String :=
        match kv.2 with
        | .jstr s => [s]
        | .jarr vs => vs.filterMap (fun v => match v with | .jstr s => some s | _ => none)
        | _ => []
      String.join (vals.map (fun v =>
        "      <prop type=\"" ++ attrEscape kv.1 ++ "\">" ++ xmlEscape v ++ "</prop>\n"))))
  | _ => ""

/-- An open `TMXWriter`'s state: the text written so far (`none` models a
    writer never opened), whether the header has been emitted, and the header
    properties. -/
structure TMXWriterState where
  file : Option String
  headerWritten : Bool := false
  headerProps : Option Properties := none

/-- `TMXWriter.write` (lines 217-251): `IOError` when not open; the header
    (carrying the first record's source tag) is emitted before the first entry;
    then one `<tu>` element with attributes, properties and the two variants. -/
def tmxWriterWrite (st : TMXWriterState) (tu : TranslationUnit) :
    Except PyErr TMXWriterState :=
  match st.file with
  | none => .error .notOpen
  | some content =>
    let (srcTag, tgtTag) := tu.language.toJsonPair
    let content :=
      if st.headerWritten then content
      else content ++ tmxHeaderText (some srcTag) st.headerProps
    let attrs :=
      (match tu.tuid with | none => [] | some s => ["tuid=\"" ++ attrEscape s ++ "\""])
      ++ (if srcTag.isEmpty then [] else ["srclang=\"" ++ attrEscape srcTag ++ "\""])
      ++ ["datatype=\"plaintext\""]
      ++ (match tu.creationDate with
          | none => [] | some s => ["creationdate=\"" ++ attrEscape s ++ "\""])
      ++ (match tu.changeDate with
          | none => [] | some s => ["changedate=\"" ++ attrEscape s ++ "\""])
    let content := content ++ "    <tu " ++ " ".intercalate attrs ++ ">\n"
    let content := content ++
      (match tu.properties with | none => "" | some j => tuPropLines j)
    let content := content ++ tmxTuvText (some srcTag) tu.sentence
    let content := content ++ tmxTuvText (some tgtTag) tu.translation
    let content := content ++ "    </tu>\n"
    .ok { st with file := some content, headerWritten := true }

/-- `TMXWriter.__exit__` (lines 205-210): whatever the exception argument is,
    write the header (with no source tag) if it was never written, then the
    closing body/root tags.  `none` when the writer was never opened (the
    `if self._file` guard). -/
def tmxWriterExit (st : TMXWriterState) (_exc : Option PyErr) : Option String :=
  match st.file with
  | none => none
  | some content =>
    some ((if st.headerWritten then content
           else content ++ tmxHeaderText none st.headerProps) ++ "  </body>\n</tmx>\n")

/-! ## Concrete inputs used in the examples -/

/-- The `Language` value `from_string` yields for a lowercase 2-3 letter code. -/
def primLang (c : String) : Language :=
  { code := c, tag := c, region := none, script := none }

/-- The events `iterparse` delivers for `<tuv xml:lang="lg"><seg>txt</seg></tuv>`. -/
def tuvEvents (lg txt : String) : List XmlEvent :=
  [.startEv "tuv" [(xmlLangKey, lg)], .startEv "seg" [], .endEv "seg" [] txt,
   .endEv "tuv" [(xmlLangKey, lg)] ""]

/-- The events for one `<tu srclang="...">` entry with the given variants. -/
def tuEvents (srclang : String) (tuvs : List (String × String)) : List XmlEvent :=
  [XmlEvent.startEv "tu" [("srclang", srclang), ("datatype", "plaintext")]]
    ++ (tuvs.map (fun p => tuvEvents p.1 p.2)).flatten
    ++ [XmlEvent.endEv "tu" [("srclang", srclang), ("datatype", "plaintext")] ""]

/-- The events for a whole document: root, header, body, entries. -/
def docEvents (headerAttrs : List (String × String)) (body : List XmlEvent) :
    List XmlEvent :=
  [XmlEvent.startEv "tmx" [("version", "1.4")], .startEv "header" headerAttrs,
   .endEv "header" headerAttrs "", .startEv "body" []]
    ++ body ++ [XmlEvent.endEv "body" [] "", XmlEvent.endEv "tmx" [] ""]

/-- A sample en→fr record. -/
def tuHello : TranslationUnit :=
  { language := { source := primLang "en", target := primLang "fr" },
    sentence := "Hello", translation := "Bonjour" }

/-! ## Fuel accounting for the parser (proof-side measures) -/

mutual
/-- An upper bound on the fuel `parseJsonVal` consumes on a dumped value. -/
def jsize : JVal → Nat
  | .jstr _ => 1
  | .jnum _ => 1
  | .jarr items => 1 + jsizeItems items
  | .jobj fields => 1 + jsizeFields fields

def jsizeItems : List JVal → Nat
  | [] => 0
  | x :: rest => 1 + jsize x + jsizeItems rest

def jsizeFields : List (String × JVal) → Nat
  | [] => 0
  | (_, v) :: rest => 1 + jsize v + jsizeFields rest
end

/-- A remainder that cannot extend a dumped number: empty or headed by a
    non-digit (every JSON delimiter qualifies). -/
def restDigitSafe : List Char → Bool
  | [] => true
  | c :: _ => !pyIsDigitChar c

/-- The reader semantics the specification describes, stated in its words:
    drop every footer-marked line wherever it appears, then parse the remaining
    lines as records in file order (failing on the first bad record). -/
def jtmIterLinesSpec (lines : List String) : Except PyErr (List TranslationUnit) :=
  (lines.filter (fun l => !(strStartsWith l footerMarker))).mapM jtmLoadLine

/-!
# Theorems
-/

/-! ## Character-level facts -/

theorem char_toNat_ofNat (n : Nat) (h : n < 55296) : (Char.ofNat n).toNat = n := by
  have hv : n < 55296 ∨ 57343 < n ∧ n < 1114112 := Or.inl h
  simp only [Char.ofNat, dif_pos hv]
  simp [Char.ofNatAux, Char.toNat, UInt32.toNat, BitVec.toNat_ofNat]

theorem char_le_iff (a c : Char) : (a ≤ c) ↔ (a.toNat ≤ c.toNat) := by
  rw [Char.le_def]; rfl

theorem char_eq_iff (a c : Char) : a = c ↔ a.toNat = c.toNat :=
  ⟨fun h => h ▸ rfl, fun h => Char.ext (UInt32.ext h)⟩

theorem pyIsAlphaChar_iff (c : Char) :
    pyIsAlphaChar c = true ↔
      (97 ≤ c.toNat ∧ c.toNat ≤ 122) ∨ (65 ≤ c.toNat ∧ c.toNat ≤ 90) := by
  simp [pyIsAlphaChar, char_le_iff]

theorem pyIsDigitChar_iff (c : Char) :
    pyIsDigitChar c = true ↔ 48 ≤ c.toNat ∧ c.toNat ≤ 57 := by
  simp [pyIsDigitChar, char_le_iff]

theorem pyLowerChar_toNat (c : Char) :
    (pyLowerChar c).toNat =
      if 65 ≤ c.toNat ∧ c.toNat ≤ 90 then c.toNat + 32 else c.toNat := by
  unfold pyLowerChar
  by_cases h : 65 ≤ c.toNat ∧ c.toNat ≤ 90
  · have hb : ('A' ≤ c && c ≤ 'Z') = true := by
      simp [char_le_iff]
      exact ⟨h.1, h.2⟩
    rw [if_pos hb, if_pos h, char_toNat_ofNat _ (by omega)]
  · have hb : ('A' ≤ c && c ≤ 'Z') = false := by
      simp [char_le_iff]
      omega
    rw [if_neg (by simp [hb]), if_neg h]

theorem pyUpperChar_toNat (c : Char) :
    (pyUpperChar c).toNat =
      if 97 ≤ c.toNat ∧ c.toNat ≤ 122 then c.toNat - 32 else c.toNat := by
  unfold pyUpperChar
  by_cases h : 97 ≤ c.toNat ∧ c.toNat ≤ 122
  · have hb : ('a' ≤ c && c ≤ 'z') = true := by
      simp [char_le_iff]
      exact ⟨h.1, h.2⟩
    rw [if_pos hb, if_pos h, char_toNat_ofNat _ (by omega)]
  · have hb : ('a' ≤ c && c ≤ 'z') = false := by
      simp [char_le_iff]
      omega
    rw [if_neg (by simp [hb]), if_neg h]

theorem pyLowerChar_idem (c : Char) : pyLowerChar (pyLowerChar c) = pyLowerChar c := by
  rw [char_eq_iff]
  simp only [pyLowerChar_toNat]
  split_ifs <;> omega

theorem pyUpperChar_idem (c : Char) : pyUpperChar (pyUpperChar c) = pyUpperChar c := by
  rw [char_eq_iff]
  simp only [pyUpperChar_toNat]
  split_ifs <;> omega

theorem pyIsAlphaChar_lower (c : Char) :
    pyIsAlphaChar (pyLowerChar c) = pyIsAlphaChar c := by
  by_cases h : pyIsAlphaChar c = true
  · rw [h]
    rw [pyIsAlphaChar_iff] at h ⊢
    rw [pyLowerChar_toNat]
    rcases h with h | h
    · rw [if_neg (by omega)]; omega
    · rw [if_pos h]; omega
  · have h' : pyIsAlphaChar c = false := by simpa using h
    rw [h']
    have hc : ¬((97 ≤ c.toNat ∧ c.toNat ≤ 122) ∨ (65 ≤ c.toNat ∧ c.toNat ≤ 90)) := by
      rw [← pyIsAlphaChar_iff]
      simp [h']
    rw [← Bool.not_eq_true, pyIsAlphaChar_iff, pyLowerChar_toNat]
    rw [if_neg (fun hh => hc (Or.inr hh))]
    exact hc

theorem pyIsAlphaChar_upper (c : Char) :
    pyIsAlphaChar (pyUpperChar c) = pyIsAlphaChar c := by
  by_cases h : pyIsAlphaChar c = true
  · rw [h]
    rw [pyIsAlphaChar_iff] at h ⊢
    rw [pyUpperChar_toNat]
    rcases h with h | h
    · rw [if_pos h]; omega
    · rw [if_neg (by omega)]; omega
  · have h' : pyIsAlphaChar c = false := by simpa using h
    rw [h']
    have hc : ¬((97 ≤ c.toNat ∧ c.toNat ≤ 122) ∨ (65 ≤ c.toNat ∧ c.toNat ≤ 90)) := by
      rw [← pyIsAlphaChar_iff]
      simp [h']
    rw [← Bool.not_eq_true, pyIsAlphaChar_iff, pyUpperChar_toNat]
    rw [if_neg (fun hh => hc (Or.inl hh))]
    exact hc

/-- Case mapping cannot produce `-` or `_` from a character that is neither. -/
theorem pyLowerChar_clean (c : Char) (h1 : c ≠ '-') (h2 : c ≠ '_') :
    pyLowerChar c ≠ '-' ∧ pyLowerChar c ≠ '_' := by
  have hd : ('-' : Char).toNat = 45 := rfl
  have hu : ('_' : Char).toNat = 95 := rfl
  have h1' : c.toNat ≠ 45 := fun hh => h1 ((char_eq_iff c '-').mpr (by rw [hd]; exact hh))
  have h2' : c.toNat ≠ 95 := fun hh => h2 ((char_eq_iff c '_').mpr (by rw [hu]; exact hh))
  refine ⟨fun hh => ?_, fun hh => ?_⟩
  · rw [char_eq_iff, pyLowerChar_toNat, hd] at hh
    revert hh
    split_ifs <;> intro hh <;> omega
  · rw [char_eq_iff, pyLowerChar_toNat, hu] at hh
    revert hh
    split_ifs <;> intro hh <;> omega

theorem pyUpperChar_clean (c : Char) (h1 : c ≠ '-') (h2 : c ≠ '_') :
    pyUpperChar c ≠ '-' ∧ pyUpperChar c ≠ '_' := by
  have hd : ('-' : Char).toNat = 45 := rfl
  have hu : ('_' : Char).toNat = 95 := rfl
  have h1' : c.toNat ≠ 45 := fun hh => h1 ((char_eq_iff c '-').mpr (by rw [hd]; exact hh))
  have h2' : c.toNat ≠ 95 := fun hh => h2 ((char_eq_iff c '_').mpr (by rw [hu]; exact hh))
  refine ⟨fun hh => ?_, fun hh => ?_⟩
  · rw [char_eq_iff, pyUpperChar_toNat, hd] at hh
    revert hh
    split_ifs <;> intro hh <;> omega
  · rw [char_eq_iff, pyUpperChar_toNat, hu] at hh
    revert hh
    split_ifs <;> intro hh <;> omega

/-! ## Chunk-parser stability: each recogniser is the identity on its own
    output, which is what makes the canonical tag re-parse to the same
    `Language`. -/

theorem mapLower_idem (cs : List Char) :
    (cs.map pyLowerChar).map pyLowerChar = cs.map pyLowerChar := by
  rw [List.map_map]
  exact List.map_congr_left (fun c _ => pyLowerChar_idem c)

theorem allAlpha_mapLower (cs : List Char) :
    (cs.map pyLowerChar).all pyIsAlphaChar = cs.all pyIsAlphaChar := by
  induction cs with
  | nil => rfl
  | cons c rest ih => simp [List.all_cons, pyIsAlphaChar_lower, ih]

theorem allAlpha_mapUpper (cs : List Char) :
    (cs.map pyUpperChar).all pyIsAlphaChar = cs.all pyIsAlphaChar := by
  induction cs with
  | nil => rfl
  | cons c rest ih => simp [List.all_cons, pyIsAlphaChar_upper, ih]

theorem parseLanguageChunk_stable {cs code : List Char}
    (h : parseLanguageChunk cs = some code) : parseLanguageChunk code = some code := by
  unfold parseLanguageChunk at h ⊢
  by_cases hc : ((cs.length = 2 || cs.length = 3) && cs.all pyIsAlphaChar) = true
  · rw [if_pos hc] at h
    obtain rfl : cs.map pyLowerChar = code := by injection h
    have hc' : (((cs.map pyLowerChar).length = 2 || (cs.map pyLowerChar).length = 3)
        && (cs.map pyLowerChar).all pyIsAlphaChar) = true := by
      rw [List.length_map, allAlpha_mapLower]
      exact hc
    rw [if_pos hc', mapLower_idem]
  · rw [if_neg hc] at h
    exact absurd h (by simp)

theorem toTitleCaseL_length (cs : List Char) : (toTitleCaseL cs).length = cs.length := by
  cases cs with
  | nil => rfl
  | cons c rest => simp [toTitleCaseL]

theorem toTitleCaseL_allAlpha (cs : List Char) :
    (toTitleCaseL cs).all pyIsAlphaChar = cs.all pyIsAlphaChar := by
  cases cs with
  | nil => rfl
  | cons c rest =>
    simp only [toTitleCaseL, List.all_cons, pyIsAlphaChar_upper]
    congr 1
    exact allAlpha_mapLower rest

theorem toTitleCaseL_idem (cs : List Char) :
    toTitleCaseL (toTitleCaseL cs) = toTitleCaseL cs := by
  cases cs with
  | nil => rfl
  | cons c rest =>
    simp [toTitleCaseL, pyUpperChar_idem, mapLower_idem]
    exact fun a _ => pyLowerChar_idem a

theorem parseScriptChunk_stable {cs sc : List Char}
    (h : parseScriptChunk cs = some sc) : parseScriptChunk sc = some sc := by
  unfold parseScriptChunk at h ⊢
  by_cases hc : (cs.length = 4 && cs.all pyIsAlphaChar) = true
  · rw [if_pos hc] at h
    obtain rfl : toTitleCaseL cs = sc := by injection h
    have hc' : ((toTitleCaseL cs).length = 4 && (toTitleCaseL cs).all pyIsAlphaChar) = true := by
      rw [toTitleCaseL_length, toTitleCaseL_allAlpha]
      exact hc
    rw [if_pos hc', toTitleCaseL_idem]
  · rw [if_neg hc] at h
    exact absurd h (by simp)

theorem mapUpper_idem (cs : List Char) :
    (cs.map pyUpperChar).map pyUpperChar = cs.map pyUpperChar := by
  rw [List.map_map]
  exact List.map_congr_left (fun c _ => pyUpperChar_idem c)

theorem parseRegionChunk_stable {cs rc : List Char}
    (h : parseRegionChunk cs = some rc) : parseRegionChunk rc = some rc := by
  unfold parseRegionChunk at h ⊢
  by_cases h2 : (cs.length = 2 && cs.all pyIsAlphaChar) = true
  · rw [if_pos h2] at h
    obtain rfl : cs.map pyUpperChar = rc := by injection h
    have h2' : ((cs.map pyUpperChar).length = 2 && (cs.map pyUpperChar).all pyIsAlphaChar)
        = true := by
      rw [List.length_map, allAlpha_mapUpper]
      exact h2
    rw [if_pos h2', mapUpper_idem]
  · rw [if_neg h2] at h
    by_cases h3 : (cs.length = 3 && cs.all pyIsDigitChar) = true
    · rw [if_pos h3] at h
      obtain rfl : cs = rc := by injection h
      rw [if_neg h2, if_pos h3]
    · rw [if_neg h3] at h
      exact absurd h (by simp)

/-- A recognised region (2 letters or 3 digits) can never be taken for a
    script (4 letters) on re-parse. -/
theorem parseScriptChunk_of_region {cs rc : List Char}
    (h : parseRegionChunk cs = some rc) : parseScriptChunk rc = none := by
  unfold parseRegionChunk at h
  unfold parseScriptChunk
  by_cases h2 : (cs.length = 2 && cs.all pyIsAlphaChar) = true
  · rw [if_pos h2] at h
    obtain rfl : cs.map pyUpperChar = rc := by injection h
    have : cs.length = 2 := by
      simp at h2
      exact h2.1
    rw [if_neg (by simp [List.length_map, this])]
  · rw [if_neg h2] at h
    by_cases h3 : (cs.length = 3 && cs.all pyIsDigitChar) = true
    · rw [if_pos h3] at h
      obtain rfl : cs = rc := by injection h
      have : cs.length = 3 := by
        simp at h3
        exact h3.1
      rw [if_neg (by simp [this])]
    · rw [if_neg h3] at h
      exact absurd h (by simp)

/-! ## `split`/`join` inversion -/

theorem splitDash_ne_nil (cs : List Char) : splitDash cs ≠ [] := by
  cases cs with
  | nil => simp [splitDash]
  | cons c rest =>
    unfold splitDash
    match h : splitDash rest with
    | [] => simp
    | p :: ps =>
      by_cases hc : c = '-' <;> simp [hc]

theorem splitDash_cons (c : Char) (rest : List Char) {q : List Char}
    {qs : List (List Char)} (h : splitDash rest = q :: qs) :
    splitDash (c :: rest) = if c = '-' then [] :: q :: qs else (c :: q) :: qs := by
  unfold splitDash
  rw [h]

theorem splitDash_dest (rest : List Char) :
    ∃ q qs, splitDash rest = q :: qs := by
  cases h : splitDash rest with
  | nil => exact absurd h (splitDash_ne_nil rest)
  | cons q qs => exact ⟨q, qs, rfl⟩

theorem splitDash_chars (cs : List Char) :
    ∀ p ∈ splitDash cs, ∀ c ∈ p, c ∈ cs ∧ c ≠ '-' := by
  induction cs with
  | nil =>
    intro p hp c hc
    simp [splitDash] at hp
    subst hp
    simp at hc
  | cons c0 rest ih =>
    intro p hp c hc
    obtain ⟨q, qs, h⟩ := splitDash_dest rest
    rw [splitDash_cons c0 rest h] at hp
    by_cases hc0 : c0 = '-'
    · rw [if_pos hc0] at hp
      rcases List.mem_cons.mp hp with rfl | hp'
      · simp at hc
      · have := ih p (h ▸ hp') c hc
        exact ⟨List.mem_cons_of_mem _ this.1, this.2⟩
    · rw [if_neg hc0] at hp
      rcases List.mem_cons.mp hp with rfl | hp'
      · rcases List.mem_cons.mp hc with rfl | hcq
        · exact ⟨List.mem_cons_self _ _, hc0⟩
        · have := ih q (h ▸ List.mem_cons_self q qs) c hcq
          exact ⟨List.mem_cons_of_mem _ this.1, this.2⟩
      · have := ih p (h ▸ List.mem_cons_of_mem q hp') c hc
        exact ⟨List.mem_cons_of_mem _ this.1, this.2⟩

theorem splitDash_no_dash {p : List Char} (h : ∀ c ∈ p, c ≠ '-') :
    splitDash p = [p] := by
  induction p with
  | nil => rfl
  | cons c rest ih =>
    have hc : c ≠ '-' := h c (List.mem_cons_self _ _)
    have hr : splitDash rest = [rest] := ih (fun x hx => h x (List.mem_cons_of_mem _ hx))
    rw [splitDash_cons c rest hr, if_neg hc]

theorem splitDash_prepend {p : List Char} (h : ∀ c ∈ p, c ≠ '-')
    (cs : List Char) {q : List Char} {qs : List (List Char)}
    (hcs : splitDash cs = q :: qs) : splitDash (p ++ cs) = (p ++ q) :: qs := by
  induction p with
  | nil => simpa using hcs
  | cons c rest ih =>
    have hc : c ≠ '-' := h c (List.mem_cons_self _ _)
    have hr := ih (fun x hx => h x (List.mem_cons_of_mem _ hx))
    simp only [List.cons_append]
    rw [splitDash_cons c (rest ++ cs) hr, if_neg hc]

theorem splitDash_joinDash : ∀ (parts : List (List Char)), parts ≠ [] →
    (∀ p ∈ parts, ∀ c ∈ p, c ≠ '-') → splitDash (joinDash parts) = parts := by
  intro parts
  induction parts with
  | nil => intro h; exact absurd rfl h
  | cons p rest ih =>
    intro _ hclean
    cases rest with
    | nil =>
      show splitDash (joinDash [p]) = [p]
      exact splitDash_no_dash (hclean p (List.mem_cons_self _ _))
    | cons q qs =>
      show splitDash (p ++ '-' :: joinDash (q :: qs)) = p :: q :: qs
      have hrest : splitDash (joinDash (q :: qs)) = q :: qs :=
        ih (by simp) (fun x hx => hclean x (List.mem_cons_of_mem _ hx))
      have hdash : splitDash ('-' :: joinDash (q :: qs)) = [] :: q :: qs := by
        rw [splitDash_cons '-' (joinDash (q :: qs)) hrest, if_pos rfl]
      have := splitDash_prepend (hclean p (List.mem_cons_self _ _))
        ('-' :: joinDash (q :: qs)) hdash
      simpa using this

theorem underscoreToDash_id {cs : List Char} (h : ∀ c ∈ cs, c ≠ '_') :
    underscoreToDash cs = cs := by
  unfold underscoreToDash
  rw [List.map_congr_left (fun c hc => if_neg (h c hc))]
  exact List.map_id _

theorem underscoreToDash_no_underscore (cs : List Char) :
    ∀ c ∈ underscoreToDash cs, c ≠ '_' := by
  intro c hc
  unfold underscoreToDash at hc
  rcases List.mem_map.mp hc with ⟨c0, _, rfl⟩
  by_cases h0 : c0 = '_'
  · rw [if_pos h0]; decide
  · rw [if_neg h0]; exact h0

theorem joinDash_chars (parts : List (List Char)) :
    ∀ c ∈ joinDash parts, (∃ p ∈ parts, c ∈ p) ∨ c = '-' := by
  induction parts with
  | nil =>
    intro c hc
    simp [joinDash] at hc
  | cons p rest ih =>
    intro c hc
    cases rest with
    | nil =>
      exact Or.inl ⟨p, List.mem_cons_self _ _, hc⟩
    | cons q qs =>
      have : c ∈ p ++ '-' :: joinDash (q :: qs) := hc
      rcases List.mem_append.mp this with hcp | hcr
      · exact Or.inl ⟨p, List.mem_cons_self _ _, hcp⟩
      · rcases List.mem_cons.mp hcr with rfl | hcj
        · exact Or.inr rfl
        · rcases ih c hcj with ⟨p', hp', hcp'⟩ | rfl
          · exact Or.inl ⟨p', List.mem_cons_of_mem _ hp', hcp'⟩
          · exact Or.inr rfl

/-! ## The chunk loop: accumulator shape, cleanliness, and replay -/

/-- "Clean": a chunk with no separator characters; splitting re-discovers it. -/
def CleanChunk (p : List Char) : Prop := ∀ c ∈ p, c ≠ '-' ∧ c ≠ '_'

theorem parseLanguageChunk_clean {cs code : List Char} (hclean : CleanChunk cs)
    (h : parseLanguageChunk cs = some code) : CleanChunk code := by
  unfold parseLanguageChunk at h
  by_cases hc : ((cs.length = 2 || cs.length = 3) && cs.all pyIsAlphaChar) = true
  · rw [if_pos hc] at h
    obtain rfl : cs.map pyLowerChar = code := by injection h
    intro c hc2
    rcases List.mem_map.mp hc2 with ⟨c0, hc0, rfl⟩
    exact pyLowerChar_clean c0 (hclean c0 hc0).1 (hclean c0 hc0).2
  · rw [if_neg hc] at h
    exact absurd h (by simp)

theorem parseScriptChunk_clean {cs sc : List Char} (hclean : CleanChunk cs)
    (h : parseScriptChunk cs = some sc) : CleanChunk sc := by
  unfold parseScriptChunk at h
  by_cases hc : (cs.length = 4 && cs.all pyIsAlphaChar) = true
  · rw [if_pos hc] at h
    obtain rfl : toTitleCaseL cs = sc := by injection h
    cases cs with
    | nil => intro c hc2; simp [toTitleCaseL] at hc2
    | cons c0 rest =>
      intro c hc2
      rcases List.mem_cons.mp hc2 with rfl | hc3
      · exact pyUpperChar_clean c0 (hclean c0 (List.mem_cons_self _ _)).1
          (hclean c0 (List.mem_cons_self _ _)).2
      · rcases List.mem_map.mp hc3 with ⟨c1, hc1, rfl⟩
        have := hclean c1 (List.mem_cons_of_mem _ hc1)
        exact pyLowerChar_clean c1 this.1 this.2
  · rw [if_neg hc] at h
    exact absurd h (by simp)

theorem parseRegionChunk_clean {cs rc : List Char} (hclean : CleanChunk cs)
    (h : parseRegionChunk cs = some rc) : CleanChunk rc := by
  unfold parseRegionChunk at h
  by_cases h2 : (cs.length = 2 && cs.all pyIsAlphaChar) = true
  · rw [if_pos h2] at h
    obtain rfl : cs.map pyUpperChar = rc := by injection h
    intro c hc2
    rcases List.mem_map.mp hc2 with ⟨c0, hc0, rfl⟩
    exact pyUpperChar_clean c0 (hclean c0 hc0).1 (hclean c0 hc0).2
  · rw [if_neg h2] at h
    by_cases h3 : (cs.length = 3 && cs.all pyIsDigitChar) = true
    · rw [if_pos h3] at h
      obtain rfl : cs = rc := by injection h
      exact hclean
    · rw [if_neg h3] at h
      exact absurd h (by simp)

/-- One step of the loop in each of its four branches (definitional, stated as
    rewriting equations). -/
theorem fsl_skip_step (chunk : List Char) (rest : List (List Char)) (i : Nat)
    (scr reg : Option (List Char)) (parts : List (List Char)) :
    fromStringLoop (chunk :: rest) i scr reg true parts
      = fromStringLoop rest (i + 1) scr reg true (parts ++ [chunk]) := rfl

theorem fsl_unfold_noskip (chunk : List Char) (rest : List (List Char)) (i : Nat)
    (scr reg : Option (List Char)) (parts : List (List Char)) :
    fromStringLoop (chunk :: rest) i scr reg false parts
      = (match (if i = 1 && scr.isNone then parseScriptChunk chunk else none) with
         | some sc => fromStringLoop rest (i + 1) (some sc) reg false (parts ++ [sc])
         | none =>
           match (if i ≤ 2 && reg.isNone then parseRegionChunk chunk else none) with
           | some rc => fromStringLoop rest (i + 1) scr (some rc) false (parts ++ [rc])
           | none => fromStringLoop rest (i + 1) scr reg true (parts ++ [chunk])) := rfl

theorem fsl_script_step {chunk : List Char} {i : Nat} {scr : Option (List Char)}
    {sc : List Char}
    (hsc : (if i = 1 && scr.isNone then parseScriptChunk chunk else none) = some sc)
    (rest : List (List Char)) (reg : Option (List Char)) (parts : List (List Char)) :
    fromStringLoop (chunk :: rest) i scr reg false parts
      = fromStringLoop rest (i + 1) (some sc) reg false (parts ++ [sc]) := by
  rw [fsl_unfold_noskip, hsc]

theorem fsl_region_step {chunk : List Char} {i : Nat} {scr reg : Option (List Char)}
    {rc : List Char}
    (hsc : (if i = 1 && scr.isNone then parseScriptChunk chunk else none) = none)
    (hrc : (if i ≤ 2 && reg.isNone then parseRegionChunk chunk else none) = some rc)
    (rest : List (List Char)) (parts : List (List Char)) :
    fromStringLoop (chunk :: rest) i scr reg false parts
      = fromStringLoop rest (i + 1) scr (some rc) false (parts ++ [rc]) := by
  rw [fsl_unfold_noskip, hsc, hrc]

theorem fsl_verbatim_step {chunk : List Char} {i : Nat} {scr reg : Option (List Char)}
    (hsc : (if i = 1 && scr.isNone then parseScriptChunk chunk else none) = none)
    (hrc : (if i ≤ 2 && reg.isNone then parseRegionChunk chunk else none) = none)
    (rest : List (List Char)) (parts : List (List Char)) :
    fromStringLoop (chunk :: rest) i scr reg false parts
      = fromStringLoop rest (i + 1) scr reg true (parts ++ [chunk]) := by
  rw [fsl_unfold_noskip, hsc, hrc]

/-- The parts accumulator only ever rides along in front. -/
theorem fromStringLoop_parts (chunks : List (List Char)) :
    ∀ (i : Nat) (scr reg : Option (List Char)) (skip : Bool)
      (parts : List (List Char)),
      fromStringLoop chunks i scr reg skip parts =
        ((fromStringLoop chunks i scr reg skip []).1,
         (fromStringLoop chunks i scr reg skip []).2.1,
         parts ++ (fromStringLoop chunks i scr reg skip []).2.2) := by
  induction chunks with
  | nil => intro i scr reg skip parts; simp [fromStringLoop]
  | cons chunk rest ih =>
    intro i scr reg skip parts
    cases skip with
    | true =>
      rw [fsl_skip_step, fsl_skip_step]
      rw [ih (i + 1) scr reg true (parts ++ [chunk]), ih (i + 1) scr reg true ([] ++ [chunk])]
      simp
    | false =>
      cases hsc : (if i = 1 && scr.isNone then parseScriptChunk chunk else none) with
      | some sc =>
        rw [fsl_script_step hsc, fsl_script_step hsc]
        rw [ih (i + 1) (some sc) reg false (parts ++ [sc]),
            ih (i + 1) (some sc) reg false ([] ++ [sc])]
        simp
      | none =>
        cases hrc : (if i ≤ 2 && reg.isNone then parseRegionChunk chunk else none) with
        | some rc =>
          rw [fsl_region_step hsc hrc, fsl_region_step hsc hrc]
          rw [ih (i + 1) scr (some rc) false (parts ++ [rc]),
              ih (i + 1) scr (some rc) false ([] ++ [rc])]
          simp
        | none =>
          rw [fsl_verbatim_step hsc hrc, fsl_verbatim_step hsc hrc]
          rw [ih (i + 1) scr reg true (parts ++ [chunk]),
              ih (i + 1) scr reg true ([] ++ [chunk])]
          simp

/-- Once `skip` is set, every remaining chunk is appended verbatim. -/
theorem fromStringLoop_skip (chunks : List (List Char)) :
    ∀ (i : Nat) (scr reg : Option (List Char)) (parts : List (List Char)),
      fromStringLoop chunks i scr reg true parts = (scr, reg, parts ++ chunks) := by
  induction chunks with
  | nil => intro i scr reg parts; simp [fromStringLoop]
  | cons chunk rest ih =>
    intro i scr reg parts
    rw [fsl_skip_step, ih]
    simp

/-- Replay: running the loop over its own output parts, from the same starting
    state, reproduces the same script, region and parts.  This is the heart
    of canonical-tag idempotence. -/
theorem fromStringLoop_replay (chunks : List (List Char)) :
    ∀ (i : Nat) (scr reg : Option (List Char)) (skip : Bool),
      fromStringLoop (fromStringLoop chunks i scr reg skip []).2.2 i scr reg skip []
        = fromStringLoop chunks i scr reg skip [] := by
  induction chunks with
  | nil => intro i scr reg skip; simp [fromStringLoop]
  | cons chunk rest ih =>
    intro i scr reg skip
    cases skip with
    | true =>
      rw [fromStringLoop_skip, fromStringLoop_skip]
      simp [fromStringLoop_skip]
    | false =>
      cases hsc : (if i = 1 && scr.isNone then parseScriptChunk chunk else none) with
      | some sc =>
        have hcond : (i = 1 && scr.isNone) = true := by
          by_cases hc : (i = 1 && scr.isNone) = true
          · exact hc
          · rw [if_neg (by simp [hc])] at hsc
            exact absurd hsc (by simp)
        have hstable : (if i = 1 && scr.isNone then parseScriptChunk sc else none)
            = some sc := by
          rw [if_pos hcond] at hsc ⊢
          exact parseScriptChunk_stable hsc
        rw [fsl_script_step hsc]
        simp only [List.nil_append]
        rw [fromStringLoop_parts rest (i + 1) (some sc) reg false [sc]]
        show fromStringLoop (sc :: (fromStringLoop rest (i+1) (some sc) reg false []).2.2)
            i scr reg false [] = _
        rw [fsl_script_step hstable]
        simp only [List.nil_append]
        rw [fromStringLoop_parts _ (i + 1) (some sc) reg false [sc],
            ih (i + 1) (some sc) reg false]
      | none =>
        cases hrc : (if i ≤ 2 && reg.isNone then parseRegionChunk chunk else none) with
        | some rc =>
          have hcond : (i ≤ 2 && reg.isNone) = true := by
            by_cases hc : (i ≤ 2 && reg.isNone) = true
            · exact hc
            · rw [if_neg (by simp [hc])] at hrc
              exact absurd hrc (by simp)
          have hregion : parseRegionChunk chunk = some rc := by
            rw [if_pos hcond] at hrc
            exact hrc
          have hnoscript : (if i = 1 && scr.isNone then parseScriptChunk rc else none)
              = none := by
            by_cases hc : (i = 1 && scr.isNone) = true
            · rw [if_pos hc]
              exact parseScriptChunk_of_region hregion
            · rw [if_neg (by simp [hc])]
          have hstable : (if i ≤ 2 && reg.isNone then parseRegionChunk rc else none)
              = some rc := by
            rw [if_pos hcond]
            exact parseRegionChunk_stable hregion
          rw [fsl_region_step hsc hrc]
          simp only [List.nil_append]
          rw [fromStringLoop_parts rest (i + 1) scr (some rc) false [rc]]
          show fromStringLoop (rc :: (fromStringLoop rest (i+1) scr (some rc) false []).2.2)
              i scr reg false [] = _
          rw [fsl_region_step hnoscript hstable]
          simp only [List.nil_append]
          rw [fromStringLoop_parts _ (i + 1) scr (some rc) false [rc],
              ih (i + 1) scr (some rc) false]
        | none =>
          rw [fsl_verbatim_step hsc hrc, fromStringLoop_skip]
          simp only [List.nil_append, List.singleton_append]
          show fromStringLoop (chunk :: rest) i scr reg false [] = _
          rw [fsl_verbatim_step hsc hrc, fromStringLoop_skip]
          simp

/-- The loop only produces chunks that were input chunks or recogniser outputs:
    cleanliness of the inputs carries to the output parts. -/
theorem fromStringLoop_clean (chunks : List (List Char)) :
    ∀ (i : Nat) (scr reg : Option (List Char)) (skip : Bool),
      (∀ p ∈ chunks, CleanChunk p) →
      ∀ p ∈ (fromStringLoop chunks i scr reg skip []).2.2, CleanChunk p := by
  induction chunks with
  | nil =>
    intro i scr reg skip _ p hp
    simp [fromStringLoop] at hp
  | cons chunk rest ih =>
    intro i scr reg skip hclean p hp
    have hchunk : CleanChunk chunk := hclean chunk (List.mem_cons_self _ _)
    have hrest : ∀ q ∈ rest, CleanChunk q :=
      fun q hq => hclean q (List.mem_cons_of_mem _ hq)
    cases skip with
    | true =>
      rw [fromStringLoop_skip] at hp
      simp at hp
      rcases hp with rfl | hp'
      · exact hchunk
      · exact hrest p hp'
    | false =>
      cases hsc : (if i = 1 && scr.isNone then parseScriptChunk chunk else none) with
      | some sc =>
        rw [fsl_script_step hsc] at hp
        simp only [List.nil_append] at hp
        rw [fromStringLoop_parts rest (i + 1) (some sc) reg false [sc]] at hp
        simp at hp
        rcases hp with rfl | hp'
        · have hps : parseScriptChunk chunk = some p := by
            by_cases hc : (i = 1 && scr.isNone) = true
            · rw [if_pos hc] at hsc; exact hsc
            · rw [if_neg (by simp [hc])] at hsc; exact absurd hsc (by simp)
          exact parseScriptChunk_clean hchunk hps
        · exact ih (i + 1) (some sc) reg false hrest p hp'
      | none =>
        cases hrc : (if i ≤ 2 && reg.isNone then parseRegionChunk chunk else none) with
        | some rc =>
          rw [fsl_region_step hsc hrc] at hp
          simp only [List.nil_append] at hp
          rw [fromStringLoop_parts rest (i + 1) scr (some rc) false [rc]] at hp
          simp at hp
          rcases hp with rfl | hp'
          · have hpr : parseRegionChunk chunk = some p := by
              by_cases hc : (i ≤ 2 && reg.isNone) = true
              · rw [if_pos hc] at hrc; exact hrc
              · rw [if_neg (by simp [hc])] at hrc; exact absurd hrc (by simp)
            exact parseRegionChunk_clean hchunk hpr
          · exact ih (i + 1) scr (some rc) false hrest p hp'
        | none =>
          rw [fsl_verbatim_step hsc hrc, fromStringLoop_skip] at hp
          simp at hp
          rcases hp with rfl | hp'
          · exact hchunk
          · exact hrest p hp'

/-! ## `from_string`: destructuring, idempotence (C5), well-formedness -/

theorem parseLanguageChunk_ne_nil {cs code : List Char}
    (h : parseLanguageChunk cs = some code) : code ≠ [] := by
  unfold parseLanguageChunk at h
  by_cases hc : ((cs.length = 2 || cs.length = 3) && cs.all pyIsAlphaChar) = true
  · rw [if_pos hc] at h
    obtain rfl : cs.map pyLowerChar = code := by injection h
    simp at hc
    intro hn
    rw [List.map_eq_nil_iff] at hn
    rw [hn] at hc
    simp at hc
  · rw [if_neg hc] at h
    exact absurd h (by simp)

theorem parseScriptChunk_ne_nil {cs sc : List Char}
    (h : parseScriptChunk cs = some sc) : sc ≠ [] := by
  unfold parseScriptChunk at h
  by_cases hc : (cs.length = 4 && cs.all pyIsAlphaChar) = true
  · rw [if_pos hc] at h
    obtain rfl : toTitleCaseL cs = sc := by injection h
    simp at hc
    intro hn
    have := toTitleCaseL_length cs
    rw [hn] at this
    simp [hc.1] at this
  · rw [if_neg hc] at h
    exact absurd h (by simp)

theorem parseRegionChunk_ne_nil {cs rc : List Char}
    (h : parseRegionChunk cs = some rc) : rc ≠ [] := by
  unfold parseRegionChunk at h
  by_cases h2 : (cs.length = 2 && cs.all pyIsAlphaChar) = true
  · rw [if_pos h2] at h
    obtain rfl : cs.map pyUpperChar = rc := by injection h
    simp at h2
    intro hn
    rw [List.map_eq_nil_iff] at hn
    rw [hn] at h2
    simp at h2
  · rw [if_neg h2] at h
    by_cases h3 : (cs.length = 3 && cs.all pyIsDigitChar) = true
    · rw [if_pos h3] at h
      obtain rfl : cs = rc := by injection h
      simp at h3
      intro hn
      rw [hn] at h3
      simp at h3
    · rw [if_neg h3] at h
      exact absurd h (by simp)

/-- The loop never stores an empty script or region. -/
theorem fromStringLoop_wf (chunks : List (List Char)) :
    ∀ (i : Nat) (scr reg : Option (List Char)) (skip : Bool)
      (parts : List (List Char)),
      (∀ s, scr = some s → s ≠ []) → (∀ r, reg = some r → r ≠ []) →
      (∀ s, (fromStringLoop chunks i scr reg skip parts).1 = some s → s ≠ []) ∧
      (∀ r, (fromStringLoop chunks i scr reg skip parts).2.1 = some r → r ≠ []) := by
  induction chunks with
  | nil =>
    intro i scr reg skip parts hs hr
    exact ⟨hs, hr⟩
  | cons chunk rest ih =>
    intro i scr reg skip parts hs hr
    cases skip with
    | true =>
      rw [fsl_skip_step]
      exact ih (i + 1) scr reg true (parts ++ [chunk]) hs hr
    | false =>
      cases hsc : (if i = 1 && scr.isNone then parseScriptChunk chunk else none) with
      | some sc =>
        rw [fsl_script_step hsc]
        have hsc' : parseScriptChunk chunk = some sc := by
          by_cases hc : (i = 1 && scr.isNone) = true
          · rw [if_pos hc] at hsc; exact hsc
          · rw [if_neg (by simp [hc])] at hsc; exact absurd hsc (by simp)
        exact ih (i + 1) (some sc) reg false (parts ++ [sc])
          (fun s h => by injection h with h; exact h ▸ parseScriptChunk_ne_nil hsc') hr
      | none =>
        cases hrc : (if i ≤ 2 && reg.isNone then parseRegionChunk chunk else none) with
        | some rc =>
          rw [fsl_region_step hsc hrc]
          have hrc' : parseRegionChunk chunk = some rc := by
            by_cases hc : (i ≤ 2 && reg.isNone) = true
            · rw [if_pos hc] at hrc; exact hrc
            · rw [if_neg (by simp [hc])] at hrc; exact absurd hrc (by simp)
          exact ih (i + 1) scr (some rc) false (parts ++ [rc]) hs
            (fun r h => by injection h with h; exact h ▸ parseRegionChunk_ne_nil hrc')
        | none =>
          rw [fsl_verbatim_step hsc hrc]
          exact ih (i + 1) scr reg true (parts ++ [chunk]) hs hr

/-- Destructuring a successful `from_string`: the returned `Language` is built
    from the primary chunk and the loop's output. -/
theorem fromString_dest {s : String} {L : Language}
    (h : Language.fromString s = some L) :
    ∃ (c0 : List Char) (rest : List (List Char)) (code : List Char),
      splitDash (underscoreToDash s.data) = c0 :: rest ∧
      parseLanguageChunk c0 = some code ∧
      L = { code := String.mk code,
            tag := String.mk (joinDash
              (code :: (fromStringLoop rest 1 none none false []).2.2)),
            region := (fromStringLoop rest 1 none none false []).2.1.map String.mk,
            script := (fromStringLoop rest 1 none none false []).1.map String.mk } := by
  unfold Language.fromString at h
  by_cases hempty : s.data.isEmpty
  · rw [if_pos hempty] at h
    exact absurd h (by simp)
  · rw [if_neg hempty] at h
    obtain ⟨c0, rest, hsplit⟩ := splitDash_dest (underscoreToDash s.data)
    rw [hsplit] at h
    replace h :
        (match parseLanguageChunk c0 with
         | none => (none : Option Language)
         | some code =>
           match fromStringLoop rest 1 none none false [] with
           | (script, region, tailParts) =>
             some { code := String.mk code,
                    tag := String.mk (joinDash (code :: tailParts)),
                    region := region.map String.mk,
                    script := script.map String.mk }) = some L := h
    cases hcode : parseLanguageChunk c0 with
    | none =>
      exact absurd h (by simp [hcode])
    | some code =>
      refine ⟨c0, rest, code, hsplit, hcode, ?_⟩
      rw [hcode] at h
      injection h with h
      exact h.symm

/-- C5 helper: every chunk `split` produces from the underscore-normalised
    input is clean (free of both separator characters). -/
theorem split_chunks_clean (cs : List Char) :
    ∀ p ∈ splitDash (underscoreToDash cs), CleanChunk p := by
  intro p hp c hc
  have h1 := splitDash_chars (underscoreToDash cs) p hp c hc
  exact ⟨h1.2, underscoreToDash_no_underscore cs c h1.1⟩

theorem joinDash_ne_nil {p : List Char} (hp : p ≠ []) (rest : List (List Char)) :
    joinDash (p :: rest) ≠ [] := by
  cases rest with
  | nil => exact hp
  | cons q qs => simp [joinDash]

/-- C5, the idempotence engine: re-parsing a canonical tag reproduces the very
    same `Language` value, field by field. -/
theorem fromString_tag_self {s : String} {L : Language}
    (h : Language.fromString s = some L) :
    Language.fromString L.tag = some L := by
  obtain ⟨c0, rest, code, hsplit, hcode, rfl⟩ := fromString_dest h
  have hchunksclean : ∀ p ∈ c0 :: rest, CleanChunk p := by
    rw [← hsplit]
    exact split_chunks_clean s.data
  have hcodeclean : CleanChunk code :=
    parseLanguageChunk_clean (hchunksclean c0 (List.mem_cons_self _ _)) hcode
  have hrestclean : ∀ p ∈ rest, CleanChunk p :=
    fun p hp => hchunksclean p (List.mem_cons_of_mem _ hp)
  have hdeltaclean : ∀ p ∈ (fromStringLoop rest 1 none none false []).2.2, CleanChunk p :=
    fromStringLoop_clean rest 1 none none false hrestclean
  have hallclean : ∀ p ∈ code :: (fromStringLoop rest 1 none none false []).2.2,
      CleanChunk p := by
    intro p hp
    rcases List.mem_cons.mp hp with rfl | hp'
    · exact hcodeclean
    · exact hdeltaclean p hp'
  have hT : (String.mk (joinDash
      (code :: (fromStringLoop rest 1 none none false []).2.2))).data
      = joinDash (code :: (fromStringLoop rest 1 none none false []).2.2) := rfl
  have hTne : joinDash (code :: (fromStringLoop rest 1 none none false []).2.2) ≠ [] :=
    joinDash_ne_nil (parseLanguageChunk_ne_nil hcode) _
  have hTnound : ∀ c ∈ joinDash (code :: (fromStringLoop rest 1 none none false []).2.2),
      c ≠ '_' := by
    intro c hc
    rcases joinDash_chars _ c hc with ⟨p, hp, hcp⟩ | rfl
    · exact (hallclean p hp c hcp).2
    · decide
  have hTsplit : splitDash (joinDash
      (code :: (fromStringLoop rest 1 none none false []).2.2))
      = code :: (fromStringLoop rest 1 none none false []).2.2 :=
    splitDash_joinDash _ (by simp) (fun p hp c hc => (hallclean p hp c hc).1)
  unfold Language.fromString
  rw [if_neg (by simpa [List.isEmpty_iff] using hTne)]
  rw [hT, underscoreToDash_id hTnound, hTsplit]
  simp only [parseLanguageChunk_stable hcode]
  rw [fromStringLoop_replay rest 1 none none false]

/-- The script and region of a parsed `Language` are never the empty string
    (they come from the 4-letter and 2-letter/3-digit recognisers). -/
theorem fromString_wf {s : String} {L : Language}
    (h : Language.fromString s = some L) :
    (∀ sc, L.script = some sc → sc ≠ "") ∧ (∀ rg, L.region = some rg → rg ≠ "") := by
  obtain ⟨c0, rest, code, hsplit, hcode, rfl⟩ := fromString_dest h
  have hwf := fromStringLoop_wf rest 1 none none false []
    (fun s hs => by simp at hs) (fun r hr => by simp at hr)
  constructor
  · intro sc hsc
    simp only [Option.map_eq_some'] at hsc
    obtain ⟨sc0, hsc0, rfl⟩ := hsc
    have := hwf.1 sc0 hsc0
    intro hempty
    apply this
    have : (String.mk sc0).data = ("" : String).data := by rw [hempty]
    simpa using this
  · intro rg hrg
    simp only [Option.map_eq_some'] at hrg
    obtain ⟨rg0, hrg0, rfl⟩ := hrg
    have := hwf.2 rg0 hrg0
    intro hempty
    apply this
    have : (String.mk rg0).data = ("" : String).data := by rw [hempty]
    simpa using this

/-- C5: for every string the parser accepts, re-parsing the produced canonical
    tag yields the very same `Language` value (so in particular an equal one
    under tag-equality): parse-then-canonicalize is idempotent. -/
theorem C5_parse_idempotent (s : String) (L : Language)
    (h : Language.fromString s = some L) :
    Language.fromString L.tag = some L :=
  fromString_tag_self h

/-- C5 at a concrete input: `en_US` parses, and its canonical tag `en-US`
    re-parses to the same value. -/
theorem C5_parse_idempotent_witness :
    Language.fromString "en_US" =
      some { code := "en", tag := "en-US", region := some "US", script := none } ∧
    Language.fromString "en-US" =
      some { code := "en", tag := "en-US", region := some "US", script := none } := by
  have h1 : Language.fromString "en_US" =
      some { code := "en", tag := "en-US", region := some "US", script := none } := by
    decide
  exact ⟨h1, C5_parse_idempotent _ _ h1⟩

/-- The generality test, rewritten under the parser's invariant that a stored
    script or region is never the empty string. -/
theorem isEqualOrMoreGenericThan_iff (a b : Language)
    (hs : ∀ sc, a.script = some sc → sc ≠ "")
    (hr : ∀ rg, a.region = some rg → rg ≠ "") :
    (a.isEqualOrMoreGenericThan b = true ↔
      (a.code = b.code ∧ (a.script = none ∨ a.script = b.script) ∧
        (a.region = none ∨ a.region = b.region))) := by
  unfold Language.isEqualOrMoreGenericThan
  by_cases hcode : a.code = b.code
  · rw [if_neg (fun hne => hne hcode)]
    cases hscr : a.script with
    | none =>
      cases hreg : a.region with
      | none => simp [optStrTruthy, hcode]
      | some rg =>
        have hie : rg.isEmpty = false := by
          rw [← Bool.not_eq_true]
          exact fun he => hr rg hreg ((String.isEmpty_iff rg).mp he)
        by_cases hreqb : some rg = b.region
        · simp [optStrTruthy, hie, hreqb, hcode]
        · simp [optStrTruthy, hie, hreqb, hcode]
    | some sc =>
      have hie : sc.isEmpty = false := by
        rw [← Bool.not_eq_true]
        exact fun he => hs sc hscr ((String.isEmpty_iff sc).mp he)
      by_cases hseqb : some sc = b.script
      · cases hreg : a.region with
        | none => simp [optStrTruthy, hie, hseqb, hcode]
        | some rg =>
          have hie2 : rg.isEmpty = false := by
            rw [← Bool.not_eq_true]
            exact fun he => hr rg hreg ((String.isEmpty_iff rg).mp he)
          by_cases hreqb : some rg = b.region
          · simp [optStrTruthy, hie, hie2, hseqb, hreqb, hcode]
          · simp [optStrTruthy, hie, hie2, hseqb, hreqb, hcode]
      · simp [optStrTruthy, hie, hseqb, hcode]
  · rw [if_pos hcode]
    simp [hcode]

/-- C6: for parsed languages the generality relation is exactly "same primary
    subtag, script absent or equal, region absent or equal"; and concretely
    `en` is equal-or-more-general than `en-US` but not conversely. -/
theorem C6_generality_relation :
    (∀ (s1 s2 : String) (a b : Language),
        Language.fromString s1 = some a → Language.fromString s2 = some b →
        (a.isEqualOrMoreGenericThan b = true ↔
          (a.code = b.code ∧ (a.script = none ∨ a.script = b.script) ∧
            (a.region = none ∨ a.region = b.region)))) ∧
    ((Language.fromString "en").bind (fun a =>
      (Language.fromString "en-US").bind (fun b =>
        some (a.isEqualOrMoreGenericThan b, b.isEqualOrMoreGenericThan a))))
      = some (true, false) := by
  constructor
  · intro s1 s2 a b ha _hb
    have hwa := fromString_wf ha
    exact isEqualOrMoreGenericThan_iff a b hwa.1 hwa.2
  · decide

/-- C6 at concrete inputs: the universal part applied at `en` and `en-US`,
    with its parse hypotheses discharged by evaluation. -/
theorem C6_generality_relation_witness :
    (primLang "en").isEqualOrMoreGenericThan
        { code := "en", tag := "en-US", region := some "US", script := none } = true ↔
      ((primLang "en").code =
          ({ code := "en", tag := "en-US", region := some "US", script := none }
            : Language).code ∧
        ((primLang "en").script = none ∨ (primLang "en").script =
          ({ code := "en", tag := "en-US", region := some "US", script := none }
            : Language).script) ∧
        ((primLang "en").region = none ∨ (primLang "en").region =
          ({ code := "en", tag := "en-US", region := some "US", script := none }
            : Language).region)) :=
  C6_generality_relation.1 "en" "en-US" (primLang "en")
    { code := "en", tag := "en-US", region := some "US", script := none }
    (by decide) (by decide)

/-! ## `tail_1`: the backward-growing window extracts the last complete line -/

theorem takeWhile_ne_of_not_mem {l : List Char} (h : '\n' ∉ l) :
    l.takeWhile (fun c => c ≠ '\n') = l := by
  induction l with
  | nil => rfl
  | cons c rest ih =>
    have hc : c ≠ '\n' := fun hh => h (hh ▸ List.mem_cons_self _ _)
    have hr : '\n' ∉ rest := fun hh => h (List.mem_cons_of_mem _ hh)
    rw [List.takeWhile_cons_of_pos (by simp [hc]), ih hr]

theorem takeWhile_take_of_mem {l : List Char} :
    ∀ {m : Nat}, '\n' ∈ l.take m →
      (l.take m).takeWhile (fun c => c ≠ '\n') = l.takeWhile (fun c => c ≠ '\n') := by
  induction l with
  | nil => intro m h; simp at h
  | cons c rest ih =>
    intro m h
    cases m with
    | zero => simp at h
    | succ m =>
      simp only [List.take_succ_cons] at h ⊢
      by_cases hc : c = '\n'
      · subst hc
        rw [List.takeWhile_cons_of_neg (by simp), List.takeWhile_cons_of_neg (by simp)]
      · have h' : '\n' ∈ rest.take m := by
          rcases List.mem_cons.mp h with hh | h'
          · exact absurd hh.symm hc
          · exact h'
        rw [List.takeWhile_cons_of_pos (by simp [hc]),
            List.takeWhile_cons_of_pos (by simp [hc]), ih h']

theorem lastLine_take_of_mem {l : List Char} :
    ∀ {m : Nat}, '\n' ∈ (l.take m).dropWhile (fun c => c = '\n') →
      ((l.take m).dropWhile (fun c => c = '\n')).takeWhile (fun c => c ≠ '\n')
        = (l.dropWhile (fun c => c = '\n')).takeWhile (fun c => c ≠ '\n') := by
  induction l with
  | nil => intro m h; simp at h
  | cons c rest ih =>
    intro m h
    cases m with
    | zero => simp at h
    | succ m =>
      simp only [List.take_succ_cons] at h ⊢
      by_cases hc : c = '\n'
      · subst hc
        rw [List.dropWhile_cons_of_pos (by simp)] at h ⊢
        exact ih h
      · rw [List.dropWhile_cons_of_neg (by simp [hc])] at h
        rw [List.dropWhile_cons_of_neg (by simp [hc]),
            List.dropWhile_cons_of_neg (by simp [hc])]
        have h' : '\n' ∈ rest.take m := by
          rcases List.mem_cons.mp h with hh | h'
          · exact absurd hh.symm hc
          · exact h'
        rw [List.takeWhile_cons_of_pos (by simp [hc]),
            List.takeWhile_cons_of_pos (by simp [hc]), takeWhile_take_of_mem h']

/-- The window loop computes exactly: strip trailing newlines, take what
    follows the last remaining newline (all phrased on the reversed list). -/
theorem tail1Rev_spec (rl : List Char) (w : Nat) (hw : 0 < w) :
    tail1Rev rl w hw
      = (rl.dropWhile (fun c => c = '\n')).takeWhile (fun c => c ≠ '\n') := by
  have main : ∀ (k w : Nat) (hw : 0 < w), rl.length - w ≤ k →
      tail1Rev rl w hw
        = (rl.dropWhile (fun c => c = '\n')).takeWhile (fun c => c ≠ '\n') := by
    intro k
    induction k with
    | zero =>
      intro w hw hle
      have hlen : rl.length ≤ w := by omega
      have htake : rl.take w = rl := List.take_of_length_le hlen
      unfold tail1Rev
      rw [htake]
      by_cases hmem : (rl.dropWhile (fun c => c = '\n')).contains '\n'
      · rw [if_pos hmem]
      · rw [if_neg hmem, dif_pos hlen]
        have : '\n' ∉ rl.dropWhile (fun c => c = '\n') := by
          intro hmm
          exact hmem (List.elem_eq_true_of_mem hmm)
        rw [takeWhile_ne_of_not_mem this]
    | succ k ih =>
      intro w hw hle
      unfold tail1Rev
      by_cases hmem : (((rl.take w).dropWhile (fun c => c = '\n'))).contains '\n'
      · rw [if_pos hmem]
        exact lastLine_take_of_mem (List.mem_of_elem_eq_true hmem)
      · rw [if_neg hmem]
        by_cases hlen : rl.length ≤ w
        · rw [dif_pos hlen]
          have htake : rl.take w = rl := List.take_of_length_le hlen
          rw [htake] at hmem ⊢
          have : '\n' ∉ rl.dropWhile (fun c => c = '\n') := by
            intro hmm
            exact hmem (List.elem_eq_true_of_mem hmm)
          rw [takeWhile_ne_of_not_mem this]
        · rw [dif_neg hlen]
          exact ih (2 * w) (by omega) (by omega)
  exact main (rl.length - w) w hw le_rfl

/-- `tail_1` returns the last complete line: the characters after the final
    newline, ignoring trailing newlines. -/
theorem tail1_eq_lastLine (content : String) : tail1 content = lastLineSpec content := by
  unfold tail1 lastLineSpec
  rw [tail1Rev_spec]

/-- `LanguageDirection.from_tuple` only ever fails with `InvalidTag`. -/
theorem fromTuple_err {src tgt : String} {e : PyErr}
    (h : LanguageDirection.fromTuple src tgt = .error e) : e = .invalidTag := by
  unfold LanguageDirection.fromTuple at h
  cases h1 : Language.fromString src with
  | none =>
    rw [h1] at h
    injection h with h
    exact h.symm
  | some a =>
    rw [h1] at h
    cases h2 : Language.fromString tgt with
    | none =>
      rw [h2] at h
      injection h with h
      exact h.symm
    | some b =>
      rw [h2] at h
      exact absurd h (by simp)

theorem footerCounterStep_err {acc : List (LanguageDirection × Nat)} {item : JVal}
    {e : PyErr} (h : footerCounterStep acc item = .error e) :
    e = .valueError ∨ e = .invalidTag := by
  unfold footerCounterStep at h
  split at h
  · rename_i src tgt n
    split at h
    · rename_i e' he
      injection h with h
      exact Or.inr (h ▸ fromTuple_err he)
    · exact absurd h (by simp)
  · injection h with h
    exact Or.inl h.symm

theorem footerCounterFold_ne_missing (items : List JVal) :
    ∀ acc, items.foldlM footerCounterStep acc ≠ .error .missingFooter := by
  induction items with
  | nil => intro acc h; exact absurd h (by simp [List.foldlM, pure, Except.pure])
  | cons item rest ih =>
    intro acc h
    rw [List.foldlM_cons] at h
    cases hstep : footerCounterStep acc item with
    | error e =>
      rw [hstep] at h
      have herr : (Except.error e : Except PyErr (List (LanguageDirection × Nat)))
          = .error .missingFooter := h
      injection herr with herr
      rcases footerCounterStep_err hstep with rfl | rfl <;> simp at herr
    | ok acc' =>
      rw [hstep] at h
      exact ih acc' h

/-- `footerCounterFromJson` never raises the missing-footer error. -/
theorem footerCounterFromJson_ne_missing (items : List JVal) :
    footerCounterFromJson items ≠ .error .missingFooter :=
  footerCounterFold_ne_missing items []

/-- `Footer.from_json` never raises the missing-footer error. -/
theorem footerFromJson_ne_missing (j : JVal) :
    footerFromJson j ≠ .error .missingFooter := by
  unfold footerFromJson
  cases j with
  | jobj fields =>
    intro h
    replace h :
        (match footerCounterFromJson
            (match jGet fields "counter" with
             | some (.jarr items) => items
             | _ => []) with
         | .error e => (Except.error e : Except PyErr Footer)
         | .ok counter =>
           .ok { counter := counter,
                 propsJson :=
                   match jGet fields "properties" with
                   | some (.jobj fs) => if fs.isEmpty then none else some (JVal.jobj fs)
                   | _ => none }) = .error .missingFooter := h
    cases hc : footerCounterFromJson
        (match jGet fields "counter" with
         | some (.jarr items) => items
         | _ => []) with
    | error e =>
      rw [hc] at h
      injection h with h
      exact footerCounterFromJson_ne_missing _ (h ▸ hc)
    | ok counter =>
      rw [hc] at h
      exact absurd h (by simp)
  | jstr s => intro h; injection h with h; exact absurd h.symm (by simp)
  | jnum n => intro h; injection h with h; exact absurd h.symm (by simp)
  | jarr items => intro h; injection h with h; exact absurd h.symm (by simp)

/-- C7: for every file content, `tail_1`'s backward-doubling window extracts
    exactly the last complete line (the characters after the final newline,
    trailing newlines ignored), and the footer query on it fails with
    `MissingFooter` exactly when that line does not start with the `.footer`
    marker. -/
theorem C7_tail_footer (content : String) :
    tail1 content = lastLineSpec content ∧
    (jtmParseFooterOfFile content = .error .missingFooter ↔
      strStartsWith (lastLineSpec content) footerMarker = false) := by
  refine ⟨tail1_eq_lastLine content, ?_⟩
  unfold jtmParseFooterOfFile footerParse footerParseLine
  rw [tail1_eq_lastLine content]
  by_cases hsw : strStartsWith (lastLineSpec content) footerMarker
  · rw [if_pos hsw]
    simp only [hsw]
    cases hl : jloads (pyStrip (String.mk
        ((lastLineSpec content).data.drop footerMarker.length))) with
    | none => simp
    | some j =>
      simp only []
      constructor
      · intro h
        exact absurd h (footerFromJson_ne_missing j)
      · intro h
        simp at h
  · rw [if_neg hsw]
    simp [hsw]

/-- `_is_equal_or_more_specific(a, b)` is `_is_equal_or_more_generic(b, a)`:
    both compute `a.lower() == b.lower() or a.lower().startswith(b.lower()+"-")`. -/
theorem isEqualOrMoreSpecificStr_swap (a b : String) :
    isEqualOrMoreSpecificStr a b = isEqualOrMoreGenericStr b a := by
  by_cases h : pyLower a = pyLower b
  · simp [isEqualOrMoreSpecificStr, isEqualOrMoreGenericStr, h]
  · have h' : ¬pyLower b = pyLower a := fun hh => h hh.symm
    simp [isEqualOrMoreSpecificStr, isEqualOrMoreGenericStr,
          beq_eq_false_iff_ne.mpr h, beq_eq_false_iff_ne.mpr h']

/-- The third selection scan of `TMXReader.__iter__` is dead code: it tests the
    very relation the second scan already tested (arguments swapped through
    `_is_equal_or_more_specific`), so it never finds a variant the second scan
    missed and the selection is exact-match, then generic-prefix, then the
    index-0 fallback. -/
theorem selectSrcIdx_third_scan_dead (sl : String) (tuvs : List TuvData) :
    selectSrcIdx sl tuvs =
      (match tuvs.findIdx? (tuvLangPred (fun lg => pyLower lg == pyLower sl)) with
       | some i => some i
       | none => tuvs.findIdx? (tuvLangPred (fun lg => isEqualOrMoreGenericStr sl lg))) := by
  unfold selectSrcIdx
  have hpred : (tuvLangPred (fun lg => isEqualOrMoreSpecificStr lg sl))
      = (tuvLangPred (fun lg => isEqualOrMoreGenericStr sl lg)) := by
    funext t
    simp [tuvLangPred]
    cases t.lang with
    | none => rfl
    | some lg => simp [isEqualOrMoreSpecificStr_swap]
  rw [hpred]
  cases h1 : tuvs.findIdx? (tuvLangPred (fun lg => pyLower lg == pyLower sl)) with
  | some i => rfl
  | none =>
    cases h2 : tuvs.findIdx? (tuvLangPred (fun lg => isEqualOrMoreGenericStr sl lg)) with
    | some i => rfl
    | none => simp [h2]

/-- C2: an entry declaring source `en-US` over variants tagged `it`, `en`.
    The claim's rule (3) would select the `en` variant (its tag is
    equal-or-more-general than `en-US`) and yield (en→it); the code's third
    scan re-tests the second scan's relation, finds nothing, falls back to
    variant 0 and yields (it→en) with the texts swapped accordingly.  The
    second conjunct checks the claim's own concrete example (source `en`
    absent over `es`, `it`, `fr`), which the fallback happens to satisfy. -/
theorem C2_third_rule_divergence :
    tmxReaderIter (some (docEvents [] (tuEvents "en-US" [("it", "A"), ("en", "B")]))) =
      .ok [{ language := { source := primLang "it", target := primLang "en" },
             sentence := "A", translation := "B",
             properties := some (JVal.jobj []) }] ∧
    tmxReaderIter (some (docEvents []
        (tuEvents "en" [("es", "E"), ("it", "I"), ("fr", "F")]))) =
      .ok [{ language := { source := primLang "es", target := primLang "it" },
             sentence := "E", translation := "I",
             properties := some (JVal.jobj []) },
           { language := { source := primLang "es", target := primLang "fr" },
             sentence := "E", translation := "F",
             properties := some (JVal.jobj []) }] := by
  exact ⟨rfl, rfl⟩

/-- C3: `TMXReader` applies no input sanitization — the raw text goes straight
    to the XML parser, whose character set excludes U+000C both as a raw byte
    and as `&#x0C;` (so such a file fails to read instead of yielding a space);
    and the only transformation the reader applies to a delivered segment,
    `_normalize_segment`, turns a lone U+000C into `""` (Python `strip()`
    removes it), not into a single space. -/
theorem C3_no_formfeed_sanitization :
    xmlCharAllowed 0x0C = false ∧ normalizeSegment "\x0C" = "" ∧
      normalizeSegment "Hello\x0C" = "Hello" := by
  refine ⟨rfl, ?_, ?_⟩ <;> decide

/-- C4: an embedded line break in a segment is not preserved: the reader
    normalizes the delivered `<seg>` text, collapsing `\n` to a space, and the
    writer normalizes again before emitting, so `Hello\nHow are you?` is read
    back as `Hello How are you?` and written as such. -/
theorem C4_newline_collapsed :
    tmxReaderIter (some (docEvents []
        (tuEvents "en" [("en", "Hello\nHow are you?"), ("it", "Ciao")]))) =
      .ok [{ language := { source := primLang "en", target := primLang "it" },
             sentence := "Hello How are you?", translation := "Ciao",
             properties := some (JVal.jobj []) }] ∧
    tmxTuvText (some "fr") "Bonjour\nComment ça va?" =
      "      <tuv xml:lang=\"fr\"><seg>Bonjour Comment ça va?</seg></tuv>\n" := by
  exact ⟨rfl, rfl⟩

/-- C9, counterexample: `JTMWriter.write` has no open check — on a writer that
    was never opened it fails with `AttributeError` (`None` has no `write`),
    not with the `NotOpen` `IOError` the claim requires uniformly. -/
theorem C9_cex_jtm_write_unopened :
    jtmWriterWrite { file := none, counter := [], props := none } tuHello =
      .error .attrNoneWrite ∧ PyErr.attrNoneWrite ≠ PyErr.notOpen := by
  exact ⟨rfl, by decide⟩

/-- C9, amended: iterating an unopened LineFormat or TMX reader fails with
    `NotOpen`, and so does writing to an unopened TMX writer; writing to an
    unopened LineFormat writer instead fails with an `AttributeError` from the
    unset file handle. -/
theorem C9_amended_unopened_errors (tu : TranslationUnit) (hw : Bool)
    (hp : Option Properties) (c : List ((String × String) × Nat))
    (p : Option Properties) :
    jtmReaderIter none = .error .notOpen ∧
    tmxReaderIter none = .error .notOpen ∧
    tmxWriterWrite { file := none, headerWritten := hw, headerProps := hp } tu =
      .error .notOpen ∧
    jtmWriterWrite { file := none, counter := c, props := p } tu =
      .error .attrNoneWrite := by
  exact ⟨rfl, rfl, rfl, rfl⟩

/-! ## The JSON codec round-trip: strings -/

theorem hexCharVal_hexDigitChar (k : Nat) (h : k < 16) :
    hexCharVal (hexDigitChar k) = some k := by
  interval_cases k <;> decide

theorem parseJsonString_escape (c : Char) (acc rest : List Char) :
    parseJsonString acc (jsonEscapeChar c ++ rest) = parseJsonString (c :: acc) rest := by
  unfold jsonEscapeChar
  split_ifs with h1 h2 h3 h4 h5 h6 h7 h8
  · subst h1; rw [parseJsonString.eq_def]; simp [jsonUnescapeChar]
  · subst h2; rw [parseJsonString.eq_def]; simp [jsonUnescapeChar]
  · subst h3; rw [parseJsonString.eq_def]; simp [jsonUnescapeChar]
  · subst h4; rw [parseJsonString.eq_def]; simp [jsonUnescapeChar]
  · subst h5; rw [parseJsonString.eq_def]; simp [jsonUnescapeChar]
  · have hc : c = Char.ofNat 8 := by
      rw [char_eq_iff, char_toNat_ofNat 8 (by omega)]
      exact h6
    subst hc; rw [parseJsonString.eq_def]; simp [jsonUnescapeChar]
  · have hc : c = Char.ofNat 12 := by
      rw [char_eq_iff, char_toNat_ofNat 12 (by omega)]
      exact h7
    subst hc; rw [parseJsonString.eq_def]; simp [jsonUnescapeChar]
  · simp only [List.cons_append, List.nil_append]
    rw [parseJsonString.eq_def]
    have hhi := hexCharVal_hexDigitChar (c.toNat / 16) (by omega)
    have hlo := hexCharVal_hexDigitChar (c.toNat % 16) (by omega)
    simp only [hhi, hlo]
    simp [hexCharVal]
    have harith : c.toNat / 16 * 16 + c.toNat % 16 = c.toNat := by omega
    rw [harith, Char.ofNat_toNat]
  · simp only [List.cons_append, List.nil_append]
    rw [parseJsonString.eq_def]
    simp [h1, h2]

theorem parseJsonString_flat (cs : List Char) :
    ∀ (acc rest : List Char),
      parseJsonString acc (cs.flatMap jsonEscapeChar ++ '"' :: rest)
        = some (String.mk (acc.reverse ++ cs), rest) := by
  induction cs with
  | nil =>
    intro acc rest
    rw [List.flatMap_nil, List.nil_append, parseJsonString.eq_def]
    simp
  | cons c cs ih =>
    intro acc rest
    rw [List.flatMap_cons, List.append_assoc, parseJsonString_escape, ih]
    simp

/-- Parsing a dumped string literal after its opening quote recovers it. -/
theorem parseJsonString_dump (s : String) (rest : List Char) :
    parseJsonString [] (s.data.flatMap jsonEscapeChar ++ '"' :: rest)
      = some (s, rest) := by
  rw [parseJsonString_flat]
  rfl

/-! ## The JSON codec round-trip: numbers -/

theorem natDecimalChars_digits (n : Nat) :
    ∀ c ∈ natDecimalChars n, pyIsDigitChar c = true := by
  induction n using Nat.strong_induction_on with
  | _ n ih =>
    unfold natDecimalChars
    by_cases h : n < 10
    · rw [dif_pos h]
      intro c hc
      rcases List.mem_singleton.mp hc with rfl
      rw [pyIsDigitChar_iff, char_toNat_ofNat _ (by omega)]
      omega
    · rw [dif_neg h]
      intro c hc
      rcases List.mem_append.mp hc with hc1 | hc2
      · exact ih (n / 10) (Nat.div_lt_self (by omega) (by omega)) c hc1
      · rcases List.mem_singleton.mp hc2 with rfl
        rw [pyIsDigitChar_iff, char_toNat_ofNat _ (by omega)]
        have := Nat.mod_lt n (show 0 < 10 by omega)
        omega

theorem natDecimalChars_ne_nil (n : Nat) : natDecimalChars n ≠ [] := by
  unfold natDecimalChars
  by_cases h : n < 10
  · rw [dif_pos h]; simp
  · rw [dif_neg h]; simp

theorem spanDigits_run {ds : List Char} (hds : ∀ c ∈ ds, pyIsDigitChar c = true)
    {rest : List Char} (hrest : restDigitSafe rest = true) :
    spanDigits (ds ++ rest) = (ds, rest) := by
  induction ds with
  | nil =>
    rw [List.nil_append]
    cases rest with
    | nil => rfl
    | cons c t =>
      have hc : pyIsDigitChar c = false := by
        unfold restDigitSafe at hrest
        simpa using hrest
      rw [spanDigits.eq_def]
      simp [hc]
  | cons d ds ih =>
    have hd : pyIsDigitChar d = true := hds d (List.mem_cons_self _ _)
    have ht := ih (fun c hc => hds c (List.mem_cons_of_mem _ hc))
    rw [List.cons_append, spanDigits.eq_def]
    simp [hd, ht]

theorem digitsToNat_natDecimalChars (n : Nat) :
    digitsToNat (natDecimalChars n) = n := by
  induction n using Nat.strong_induction_on with
  | _ n ih =>
    unfold natDecimalChars
    by_cases h : n < 10
    · rw [dif_pos h]
      unfold digitsToNat
      simp [char_toNat_ofNat _ (show 48 + n < 55296 by omega)]
    · rw [dif_neg h]
      unfold digitsToNat
      rw [List.foldl_append]
      have hpre := ih (n / 10) (Nat.div_lt_self (by omega) (by omega))
      unfold digitsToNat at hpre
      rw [hpre]
      simp [char_toNat_ofNat _ (show 48 + n % 10 < 55296 by
        have := Nat.mod_lt n (show 0 < 10 by omega); omega)]
      omega

/-! ## The JSON codec round-trip: head shapes and whitespace -/

theorem digit_char_facts {c : Char} (h : pyIsDigitChar c = true) :
    jsonWsChar c = false ∧ c ≠ '"' ∧ c ≠ '[' ∧ c ≠ '{' ∧ c ≠ ']' ∧ c ≠ '}' := by
  rw [pyIsDigitChar_iff] at h
  have hne : ∀ (d : Char), d.toNat < 48 ∨ 57 < d.toNat → ¬(c = d) := by
    intro d hd hh
    rw [char_eq_iff] at hh
    omega
  refine ⟨?_, hne '"' (by decide), hne '[' (by decide), hne '{' (by decide),
          hne ']' (by decide), hne '}' (by decide)⟩
  unfold jsonWsChar
  simp [hne ' ' (by decide), hne '\t' (by decide), hne '\n' (by decide),
        hne '\r' (by decide)]

/-! ## The JSON codec round-trip: serializer equations and head shapes -/

theorem jdumpsChars_str (s : String) :
    jdumpsChars (.jstr s) = '"' :: (s.data.flatMap jsonEscapeChar ++ ['"']) := by
  unfold jdumpsChars jsonStringChars
  rfl

theorem jdumpsChars_num (n : Nat) : jdumpsChars (.jnum n) = natDecimalChars n := by
  unfold jdumpsChars
  rfl

theorem jdumpsChars_arr (items : List JVal) :
    jdumpsChars (.jarr items) = '[' :: (jdumpsItems items ++ [']']) := by
  unfold jdumpsChars
  rfl

theorem jdumpsChars_obj (fields : List (String × JVal)) :
    jdumpsChars (.jobj fields) = '{' :: (jdumpsFields fields ++ ['}']) := by
  unfold jdumpsChars
  rfl

theorem jdumpsItems_nil : jdumpsItems [] = [] := by
  unfold jdumpsItems
  rfl

theorem jdumpsItems_single (x : JVal) : jdumpsItems [x] = jdumpsChars x := by
  unfold jdumpsItems
  rfl

theorem jdumpsItems_cons2 (x y : JVal) (ys : List JVal) :
    jdumpsItems (x :: y :: ys) = jdumpsChars x ++ ',' :: jdumpsItems (y :: ys) := by
  cases ys with
  | nil => unfold jdumpsItems; rfl
  | cons z zs => unfold jdumpsItems; rfl

theorem jdumpsFields_nil : jdumpsFields [] = [] := by
  unfold jdumpsFields
  rfl

theorem jdumpsFields_single (k : String) (v : JVal) :
    jdumpsFields [(k, v)] = jsonStringChars k ++ ':' :: jdumpsChars v := by
  unfold jdumpsFields
  rfl

theorem jdumpsFields_cons2 (k : String) (v : JVal) (kv2 : String × JVal)
    (fs : List (String × JVal)) :
    jdumpsFields ((k, v) :: kv2 :: fs)
      = jsonStringChars k ++ ':' :: jdumpsChars v ++ ',' :: jdumpsFields (kv2 :: fs) := by
  obtain ⟨k2, v2⟩ := kv2
  cases fs with
  | nil => unfold jdumpsFields; rfl
  | cons kv3 fs2 =>
    obtain ⟨k3, v3⟩ := kv3
    unfold jdumpsFields
    rfl

theorem jdumpsItems_factor (x : JVal) (xs : List JVal) :
    ∃ s, jdumpsItems (x :: xs) = jdumpsChars x ++ s := by
  cases xs with
  | nil => exact ⟨[], by rw [jdumpsItems_single, List.append_nil]⟩
  | cons y ys => exact ⟨',' :: jdumpsItems (y :: ys), jdumpsItems_cons2 x y ys⟩

theorem jdumpsChars_head (j : JVal) :
    ∃ c t, jdumpsChars j = c :: t ∧ jsonWsChar c = false ∧ c ≠ ']' ∧ c ≠ '}' := by
  cases j with
  | jstr s =>
    exact ⟨'"', _, jdumpsChars_str s, by decide, by decide, by decide⟩
  | jnum n =>
    obtain ⟨c0, t, hnum⟩ : ∃ c0 t, natDecimalChars n = c0 :: t := by
      cases hx : natDecimalChars n with
      | nil => exact absurd hx (natDecimalChars_ne_nil n)
      | cons c0 t => exact ⟨c0, t, rfl⟩
    have hd : pyIsDigitChar c0 = true :=
      natDecimalChars_digits n c0 (hnum ▸ List.mem_cons_self _ _)
    obtain ⟨hws, _, _, _, hbr, hbc⟩ := digit_char_facts hd
    exact ⟨c0, t, by rw [jdumpsChars_num, hnum], hws, hbr, hbc⟩
  | jarr items =>
    exact ⟨'[', _, jdumpsChars_arr items, by decide, by decide, by decide⟩
  | jobj fields =>
    exact ⟨'{', _, jdumpsChars_obj fields, by decide, by decide, by decide⟩

theorem dropJsonWs_cons_of {c : Char} (h : jsonWsChar c = false) (t : List Char) :
    dropJsonWs (c :: t) = c :: t := by
  unfold dropJsonWs
  rw [List.dropWhile_cons_of_neg (by simp [h])]

theorem dropJsonWs_dumps (j : JVal) (x : List Char) :
    dropJsonWs (jdumpsChars j ++ x) = jdumpsChars j ++ x := by
  obtain ⟨c, t, hj, hws, _, _⟩ := jdumpsChars_head j
  rw [hj, List.cons_append, dropJsonWs_cons_of hws]

theorem parseJsonVal_succ (fuel : Nat) (cs : List Char) :
    parseJsonVal (fuel + 1) cs =
      match dropJsonWs cs with
      | [] => none
      | c :: rest =>
        if c = '"' then
          match parseJsonString [] rest with
          | some (s, r) => some (.jstr s, r)
          | none => none
        else if c = '[' then
          match dropJsonWs rest with
          | ']' :: r => some (.jarr [], r)
          | cs2 =>
            match parseJsonItems fuel cs2 with
            | some (xs, r) => some (.jarr xs, r)
            | none => none
        else if c = '{' then
          match dropJsonWs rest with
          | '}' :: r => some (.jobj [], r)
          | cs2 =>
            match parseJsonFields fuel cs2 with
            | some (fs, r) => some (.jobj fs, r)
            | none => none
        else if pyIsDigitChar c then
          match spanDigits (c :: rest) with
          | (ds, r) => some (.jnum (digitsToNat ds), r)
        else none := by
  rw [parseJsonVal.eq_def]

theorem parseJsonItems_succ (fuel : Nat) (cs : List Char) :
    parseJsonItems (fuel + 1) cs =
      match parseJsonVal fuel cs with
      | none => none
      | some (v, r) =>
        match dropJsonWs r with
        | ',' :: r2 =>
          match parseJsonItems fuel r2 with
          | some (vs, r3) => some (v :: vs, r3)
          | none => none
        | ']' :: r2 => some ([v], r2)
        | _ => none := by
  rw [parseJsonItems.eq_def]

theorem parseJsonFields_succ (fuel : Nat) (cs : List Char) :
    parseJsonFields (fuel + 1) cs =
      match dropJsonWs cs with
      | '"' :: r =>
        match parseJsonString [] r with
        | none => none
        | some (k, r1) =>
          match dropJsonWs r1 with
          | ':' :: r2 =>
            match parseJsonVal fuel r2 with
            | none => none
            | some (v, r3) =>
              match dropJsonWs r3 with
              | ',' :: r4 =>
                match parseJsonFields fuel r4 with
                | some (fs, r5) => some ((k, v) :: fs, r5)
                | none => none
              | '}' :: r4 => some ([(k, v)], r4)
              | _ => none
          | _ => none
      | _ => none := by
  rw [parseJsonFields.eq_def]

/-! ## The JSON codec round-trip: the grammar -/

mutual
theorem rtVal : ∀ (j : JVal) (fuel : Nat) (rest : List Char),
    jsize j ≤ fuel → restDigitSafe rest = true →
    parseJsonVal fuel (jdumpsChars j ++ rest) = some (j, rest)
  | .jstr s, fuel, rest, hfuel, _ => by
    cases fuel with
    | zero => simp [jsize] at hfuel
    | succ f =>
      rw [jdumpsChars_str, List.cons_append, List.append_assoc, List.singleton_append]
      rw [parseJsonVal.eq_def]
      simp only [dropJsonWs_cons_of (show jsonWsChar '"' = false by decide)]
      simp [parseJsonString_dump]
  | .jnum n, fuel, rest, hfuel, hrest => by
    cases fuel with
    | zero => simp [jsize] at hfuel
    | succ f =>
      obtain ⟨c0, t, hnum⟩ : ∃ c0 t, natDecimalChars n = c0 :: t := by
        cases hx : natDecimalChars n with
        | nil => exact absurd hx (natDecimalChars_ne_nil n)
        | cons c0 t => exact ⟨c0, t, rfl⟩
      have hd : pyIsDigitChar c0 = true :=
        natDecimalChars_digits n c0 (hnum ▸ List.mem_cons_self _ _)
      obtain ⟨hws, hq, hbk, hbc, _, _⟩ := digit_char_facts hd
      have hspan : spanDigits ((c0 :: t) ++ rest) = (c0 :: t, rest) := by
        rw [← hnum]
        exact spanDigits_run (natDecimalChars_digits n) hrest
      have hval : digitsToNat (c0 :: t) = n := by
        rw [← hnum]
        exact digitsToNat_natDecimalChars n
      rw [jdumpsChars_num, hnum, List.cons_append, parseJsonVal.eq_def]
      simp only [dropJsonWs_cons_of hws]
      simp only [if_neg hq, if_neg hbk, if_neg hbc, if_pos hd]
      rw [← List.cons_append, hspan]
      simp [hval]
  | .jarr [], fuel, rest, hfuel, _ => by
    cases fuel with
    | zero => simp [jsize] at hfuel
    | succ f =>
      rw [jdumpsChars_arr, jdumpsItems_nil, List.nil_append, List.cons_append,
          List.singleton_append, parseJsonVal.eq_def]
      simp only [dropJsonWs_cons_of (show jsonWsChar '[' = false by decide)]
      simp [dropJsonWs_cons_of (show jsonWsChar ']' = false by decide)]
  | .jarr (x :: xs), fuel, rest, hfuel, _ => by
    cases fuel with
    | zero => simp [jsize] at hfuel
    | succ f =>
      have hsz : jsizeItems (x :: xs) ≤ f := by
        simp only [jsize] at hfuel
        omega
      obtain ⟨s', hfac⟩ := jdumpsItems_factor x xs
      obtain ⟨c0, t0, hx, hws, hbr, _⟩ := jdumpsChars_head x
      have hkey := rtItems x xs f rest hsz
      have hdrop : dropJsonWs (jdumpsItems (x :: xs) ++ ']' :: rest)
          = jdumpsItems (x :: xs) ++ ']' :: rest := by
        rw [hfac, List.append_assoc]
        exact dropJsonWs_dumps x _
      have hshape : jdumpsItems (x :: xs) ++ ']' :: rest
          = c0 :: (t0 ++ (s' ++ ']' :: rest)) := by
        rw [hfac, hx]
        simp
      rw [jdumpsChars_arr, List.cons_append, List.append_assoc, List.singleton_append,
          parseJsonVal_succ]
      simp only [dropJsonWs_cons_of (show jsonWsChar '[' = false by decide), reduceIte]
      rw [if_neg (show ¬(('[' : Char) = '"') by decide)]
      rw [hdrop, hshape]
      split
      · rename_i r heq
        injection heq with h1 _
        exact absurd h1 hbr
      · rw [← hshape, hkey]
  | .jobj [], fuel, rest, hfuel, _ => by
    cases fuel with
    | zero => simp [jsize] at hfuel
    | succ f =>
      rw [jdumpsChars_obj, jdumpsFields_nil, List.nil_append, List.cons_append,
          List.singleton_append, parseJsonVal.eq_def]
      simp only [dropJsonWs_cons_of (show jsonWsChar '{' = false by decide)]
      simp [dropJsonWs_cons_of (show jsonWsChar '}' = false by decide)]
  | .jobj (kv :: fs), fuel, rest, hfuel, _ => by
    cases fuel with
    | zero => simp [jsize] at hfuel
    | succ f =>
      have hsz : jsizeFields (kv :: fs) ≤ f := by
        simp only [jsize] at hfuel
        omega
      have hkey := rtFields kv fs f rest hsz
      obtain ⟨k, v⟩ := kv
      have hfac : ∃ s, jdumpsFields ((k, v) :: fs)
          = '"' :: (k.data.flatMap jsonEscapeChar ++ ('"' :: s)) := by
        cases fs with
        | nil =>
          refine ⟨':' :: jdumpsChars v, ?_⟩
          rw [jdumpsFields_single]
          unfold jsonStringChars
          simp
        | cons kv2 fs2 =>
          refine ⟨':' :: (jdumpsChars v ++ ',' :: jdumpsFields (kv2 :: fs2)), ?_⟩
          rw [jdumpsFields_cons2]
          unfold jsonStringChars
          simp
      obtain ⟨s', hfac⟩ := hfac
      have hdrop : dropJsonWs (jdumpsFields ((k, v) :: fs) ++ '}' :: rest)
          = jdumpsFields ((k, v) :: fs) ++ '}' :: rest := by
        rw [hfac, List.cons_append]
        exact dropJsonWs_cons_of (by decide) _
      have hshape : jdumpsFields ((k, v) :: fs) ++ '}' :: rest
          = '"' :: ((k.data.flatMap jsonEscapeChar ++ ('"' :: s')) ++ '}' :: rest) := by
        rw [hfac, List.cons_append]
      rw [jdumpsChars_obj, List.cons_append, List.append_assoc, List.singleton_append,
          parseJsonVal_succ]
      simp only [dropJsonWs_cons_of (show jsonWsChar '{' = false by decide), reduceIte]
      rw [if_neg (show ¬(('{' : Char) = '"') by decide),
          if_neg (show ¬(('{' : Char) = '[') by decide)]
      rw [hdrop, hshape]
      split
      · rename_i r heq
        injection heq with h1 _
        exact absurd h1 (by decide)
      · rw [← hshape, hkey]
termination_by j _ _ _ _ => sizeOf j

theorem rtItems : ∀ (x : JVal) (xs : List JVal) (fuel : Nat) (rest : List Char),
    jsizeItems (x :: xs) ≤ fuel →
    parseJsonItems fuel (jdumpsItems (x :: xs) ++ ']' :: rest) = some (x :: xs, rest)
  | x, [], fuel, rest, hfuel => by
    cases fuel with
    | zero => simp [jsizeItems] at hfuel
    | succ f =>
      have hx : jsize x ≤ f := by
        simp only [jsizeItems] at hfuel
        omega
      rw [jdumpsItems_single, parseJsonItems_succ]
      rw [rtVal x f (']' :: rest) hx (by rfl)]
      simp [dropJsonWs_cons_of (show jsonWsChar ']' = false by decide)]
  | x, y :: ys, fuel, rest, hfuel => by
    cases fuel with
    | zero => simp [jsizeItems] at hfuel
    | succ f =>
      have hx : jsize x ≤ f := by
        simp only [jsizeItems] at hfuel
        omega
      have hys : jsizeItems (y :: ys) ≤ f := by
        simp only [jsizeItems] at hfuel ⊢
        omega
      rw [jdumpsItems_cons2, parseJsonItems_succ, List.append_assoc,
          List.cons_append]
      rw [rtVal x f (',' :: (jdumpsItems (y :: ys) ++ ']' :: rest)) hx (by rfl)]
      simp only [dropJsonWs_cons_of (show jsonWsChar ',' = false by decide)]
      rw [rtItems y ys f rest hys]
termination_by x xs _ _ _ => 1 + sizeOf x + sizeOf xs

theorem rtFields : ∀ (kv : String × JVal) (fs : List (String × JVal)) (fuel : Nat)
    (rest : List Char),
    jsizeFields (kv :: fs) ≤ fuel →
    parseJsonFields fuel (jdumpsFields (kv :: fs) ++ '}' :: rest) = some (kv :: fs, rest)
  | (k, v), [], fuel, rest, hfuel => by
    cases fuel with
    | zero => simp [jsizeFields] at hfuel
    | succ f =>
      have hv : jsize v ≤ f := by
        simp only [jsizeFields] at hfuel
        omega
      rw [jdumpsFields_single, parseJsonFields_succ]
      unfold jsonStringChars
      simp only [List.cons_append, List.append_assoc, List.singleton_append,
        List.nil_append]
      simp only [dropJsonWs_cons_of (show jsonWsChar '"' = false by decide)]
      simp only [parseJsonString_dump]
      simp only [dropJsonWs_cons_of (show jsonWsChar ':' = false by decide)]
      rw [rtVal v f ('}' :: rest) hv (by rfl)]
      simp [dropJsonWs_cons_of (show jsonWsChar '}' = false by decide)]
  | (k, v), kv2 :: fs2, fuel, rest, hfuel => by
    cases fuel with
    | zero => simp [jsizeFields] at hfuel
    | succ f =>
      have hv : jsize v ≤ f := by
        simp only [jsizeFields] at hfuel
        omega
      have hfs : jsizeFields (kv2 :: fs2) ≤ f := by
        simp only [jsizeFields] at hfuel ⊢
        omega
      rw [jdumpsFields_cons2, parseJsonFields_succ]
      unfold jsonStringChars
      simp only [List.cons_append, List.append_assoc, List.singleton_append,
        List.nil_append]
      simp only [dropJsonWs_cons_of (show jsonWsChar '"' = false by decide)]
      simp only [parseJsonString_dump]
      simp only [dropJsonWs_cons_of (show jsonWsChar ':' = false by decide)]
      rw [rtVal v f (',' :: (jdumpsFields (kv2 :: fs2) ++ '}' :: rest)) hv (by rfl)]
      simp only [dropJsonWs_cons_of (show jsonWsChar ',' = false by decide)]
      rw [rtFields kv2 fs2 f rest hfs]
termination_by kv fs _ _ _ => 1 + sizeOf kv + sizeOf fs
end

/-! ## Fuel bounds: a dumped value always fits in the fuel `jloads` allots -/

mutual
theorem jsize_le_val : ∀ j : JVal, jsize j ≤ (jdumpsChars j).length
  | .jstr s => by
    rw [jdumpsChars_str]
    simp [jsize]
  | .jnum n => by
    rw [jdumpsChars_num]
    have h := natDecimalChars_ne_nil n
    have : 0 < (natDecimalChars n).length := List.length_pos.mpr h
    simp [jsize]
    omega
  | .jarr items => by
    rw [jdumpsChars_arr]
    have h := jsize_le_items items
    simp only [jsize, List.length_cons, List.length_append, List.length_singleton]
    omega
  | .jobj fields => by
    rw [jdumpsChars_obj]
    have h := jsize_le_fields fields
    simp only [jsize, List.length_cons, List.length_append, List.length_singleton]
    omega
termination_by j => sizeOf j

theorem jsize_le_items : ∀ xs : List JVal, jsizeItems xs ≤ (jdumpsItems xs).length + 1
  | [] => by
    rw [jdumpsItems_nil]
    simp [jsizeItems]
  | [x] => by
    rw [jdumpsItems_single]
    have h := jsize_le_val x
    simp only [jsizeItems]
    omega
  | x :: y :: ys => by
    rw [jdumpsItems_cons2]
    have h1 := jsize_le_val x
    have h2 := jsize_le_items (y :: ys)
    simp only [jsizeItems, List.length_append, List.length_cons] at h2 ⊢
    omega
termination_by xs => sizeOf xs

theorem jsize_le_fields : ∀ fs : List (String × JVal),
    jsizeFields fs ≤ (jdumpsFields fs).length + 1
  | [] => by
    rw [jdumpsFields_nil]
    simp [jsizeFields]
  | [(k, v)] => by
    rw [jdumpsFields_single]
    have h := jsize_le_val v
    simp only [jsizeFields, List.length_append, List.length_cons]
    omega
  | (k, v) :: kv2 :: fs2 => by
    rw [jdumpsFields_cons2]
    have h1 := jsize_le_val v
    have h2 := jsize_le_fields (kv2 :: fs2)
    simp only [jsizeFields, List.length_append, List.length_cons] at h2 ⊢
    omega
termination_by fs => sizeOf fs
end

/-- `json.loads` inverts `json.dumps` on every value the codec produces. -/
theorem jloads_jdumps (j : JVal) : jloads (jdumps j) = some j := by
  unfold jloads jdumps
  have hfuel : jsize j ≤ (jdumpsChars j).length + 1 :=
    Nat.le_trans (jsize_le_val j) (Nat.le_succ _)
  have h := rtVal j ((jdumpsChars j).length + 1) [] hfuel rfl
  rw [List.append_nil] at h
  simp only [String.data]
  rw [h]
  simp [dropJsonWs]

/-! ## Dumped JSON is newline-free, brace-delimited, strip-stable -/

theorem hexDigitChar_ne_newline {n : Nat} (h : n < 16) : hexDigitChar n ≠ '\n' := by
  unfold hexDigitChar
  have hnl : ('\n' : Char).toNat = 10 := rfl
  split
  · intro hc
    rw [char_eq_iff, char_toNat_ofNat (48 + n) (by omega), hnl] at hc
    omega
  · intro hc
    rw [char_eq_iff, char_toNat_ofNat (87 + n) (by omega), hnl] at hc
    omega

theorem jsonEscapeChar_no_newline (c x : Char) (hx : x ∈ jsonEscapeChar c) :
    x ≠ '\n' := by
  unfold jsonEscapeChar at hx
  split_ifs at hx with h1 h2 h3 h4 h5 h6 h7 h8
  · simp only [List.mem_cons, List.not_mem_nil, or_false] at hx
    rcases hx with h | h <;> subst h <;> decide
  · simp only [List.mem_cons, List.not_mem_nil, or_false] at hx
    rcases hx with h | h <;> subst h <;> decide
  · simp only [List.mem_cons, List.not_mem_nil, or_false] at hx
    rcases hx with h | h <;> subst h <;> decide
  · simp only [List.mem_cons, List.not_mem_nil, or_false] at hx
    rcases hx with h | h <;> subst h <;> decide
  · simp only [List.mem_cons, List.not_mem_nil, or_false] at hx
    rcases hx with h | h <;> subst h <;> decide
  · simp only [List.mem_cons, List.not_mem_nil, or_false] at hx
    rcases hx with h | h <;> subst h <;> decide
  · simp only [List.mem_cons, List.not_mem_nil, or_false] at hx
    rcases hx with h | h <;> subst h <;> decide
  · simp only [List.mem_cons, List.not_mem_nil, or_false] at hx
    rcases hx with h | h | h | h | h | h
    · simp [h]
    · simp [h]
    · simp [h]
    · simp [h]
    · exact h ▸ hexDigitChar_ne_newline (by omega)
    · exact h ▸ hexDigitChar_ne_newline (Nat.mod_lt _ (by omega))
  · simp only [List.mem_cons, List.not_mem_nil, or_false] at hx
    exact hx ▸ h3

theorem digit_ne_newline {c : Char} (h : pyIsDigitChar c = true) : c ≠ '\n' := by
  have := (digit_char_facts h).1
  intro hc
  rw [hc] at this
  simp [jsonWsChar] at this

theorem jsonStringChars_no_newline (k : String) : ∀ c ∈ jsonStringChars k, c ≠ '\n' := by
  intro c hc
  unfold jsonStringChars at hc
  rcases List.mem_cons.mp hc with h | h
  · simp [h]
  rcases List.mem_append.mp h with h | h
  · obtain ⟨a, _, ha⟩ := List.mem_flatMap.mp h
    exact jsonEscapeChar_no_newline a c ha
  · simp only [List.mem_singleton] at h
    simp [h]

mutual
theorem jdumps_no_newline_val : ∀ (j : JVal), ∀ c ∈ jdumpsChars j, c ≠ '\n'
  | .jstr s => by
    rw [jdumpsChars_str]
    intro c hc
    rcases List.mem_cons.mp hc with h | h
    · simp [h]
    rcases List.mem_append.mp h with h | h
    · obtain ⟨a, _, ha⟩ := List.mem_flatMap.mp h
      exact jsonEscapeChar_no_newline a c ha
    · simp only [List.mem_singleton] at h
      simp [h]
  | .jnum n => by
    rw [jdumpsChars_num]
    intro c hc
    exact digit_ne_newline (natDecimalChars_digits n c hc)
  | .jarr items => by
    rw [jdumpsChars_arr]
    intro c hc
    rcases List.mem_cons.mp hc with h | h
    · simp [h]
    rcases List.mem_append.mp h with h | h
    · exact jdumps_no_newline_items items c h
    · simp only [List.mem_singleton] at h
      simp [h]
  | .jobj fields => by
    rw [jdumpsChars_obj]
    intro c hc
    rcases List.mem_cons.mp hc with h | h
    · simp [h]
    rcases List.mem_append.mp h with h | h
    · exact jdumps_no_newline_fields fields c h
    · simp only [List.mem_singleton] at h
      simp [h]
termination_by j => sizeOf j

theorem jdumps_no_newline_items : ∀ (xs : List JVal), ∀ c ∈ jdumpsItems xs, c ≠ '\n'
  | [] => by
    rw [jdumpsItems_nil]
    intro c hc
    exact absurd hc (List.not_mem_nil c)
  | [x] => by
    rw [jdumpsItems_single]
    exact jdumps_no_newline_val x
  | x :: y :: ys => by
    rw [jdumpsItems_cons2]
    intro c hc
    rcases List.mem_append.mp hc with h | h
    · exact jdumps_no_newline_val x c h
    rcases List.mem_cons.mp h with h | h
    · simp [h]
    · exact jdumps_no_newline_items (y :: ys) c h
termination_by xs => sizeOf xs

theorem jdumps_no_newline_fields : ∀ (fs : List (String × JVal)),
    ∀ c ∈ jdumpsFields fs, c ≠ '\n'
  | [] => by
    rw [jdumpsFields_nil]
    intro c hc
    exact absurd hc (List.not_mem_nil c)
  | [(k, v)] => by
    rw [jdumpsFields_single]
    intro c hc
    rcases List.mem_append.mp hc with h | h
    · exact jsonStringChars_no_newline k c h
    rcases List.mem_cons.mp h with h | h
    · simp [h]
    · exact jdumps_no_newline_val v c h
  | (k, v) :: kv2 :: fs2 => by
    rw [jdumpsFields_cons2]
    intro c hc
    rcases List.mem_append.mp hc with h | h
    · rcases List.mem_append.mp h with h | h
      · exact jsonStringChars_no_newline k c h
      rcases List.mem_cons.mp h with h | h
      · simp [h]
      · exact jdumps_no_newline_val v c h
    rcases List.mem_cons.mp h with h | h
    · simp [h]
    · exact jdumps_no_newline_fields (kv2 :: fs2) c h
termination_by fs => sizeOf fs
end

/-- A compact object dump has no surrounding whitespace, so `str.strip()` is
    the identity on it. -/
theorem pyStrip_jdumps_obj (fields : List (String × JVal)) :
    pyStrip (jdumps (.jobj fields)) = jdumps (.jobj fields) := by
  unfold pyStrip pyStripL jdumps
  simp only [String.data]
  rw [jdumpsChars_obj]
  rw [List.dropWhile_cons_of_neg (by decide)]
  rw [show ('{' :: (jdumpsFields fields ++ ['}'])).reverse
        = '}' :: ((jdumpsFields fields).reverse ++ ['{']) by simp]
  rw [List.dropWhile_cons_of_neg (by decide)]
  simp

/-- The footer line starts with the marker. -/
theorem footerLine_starts (counter : List ((String × String) × Nat))
    (props : Option Properties) :
    strStartsWith (footerLineStr counter props) footerMarker = true := by
  unfold strStartsWith footerLineStr
  rw [String.data_append]
  exact List.isPrefixOf_iff_prefix.mpr (List.prefix_append _ _)

/-- A record line (a compact object dump) does not start with the marker. -/
theorem dumps_obj_not_footer (fields : List (String × JVal)) :
    strStartsWith (jdumps (.jobj fields)) footerMarker = false := by
  unfold strStartsWith jdumps
  simp only [String.data]
  rw [jdumpsChars_obj]
  rw [show footerMarker.data = '.' :: ".footer".data.tail from rfl]
  simp [List.isPrefixOf]

/-- `Footer.parse`'s line stage inverts `Footer.__str__`. -/
theorem footerParseLine_ok (counter : List ((String × String) × Nat))
    (props : Option Properties) :
    footerParseLine (footerLineStr counter props) = .ok (footerToJson counter props) := by
  unfold footerParseLine
  rw [footerLine_starts]
  simp only [if_true]
  have hdrop : (footerLineStr counter props).data.drop footerMarker.length
      = (jdumps (footerToJson counter props)).data := by
    unfold footerLineStr
    rw [String.data_append]
    rw [show footerMarker.length = footerMarker.data.length from rfl]
    exact List.drop_left _ _
  rw [hdrop]
  rw [show String.mk (jdumps (footerToJson counter props)).data
        = jdumps (footerToJson counter props) from rfl]
  have hobj : ∃ fs, footerToJson counter props = JVal.jobj fs := by
    cases props <;> exact ⟨_, rfl⟩
  obtain ⟨fs, hfs⟩ := hobj
  rw [hfs, pyStrip_jdumps_obj, jloads_jdumps]

/-! ## The writer's counter -/

theorem counterBump_total (c : List ((String × String) × Nat)) (k : String × String) :
    counterTotal (counterBump c k) = counterTotal c + 1 := by
  induction c with
  | nil => rfl
  | cons kn rest ih =>
    obtain ⟨k0, n⟩ := kn
    unfold counterBump
    by_cases h : k0 = k
    · rw [if_pos h]
      simp only [counterTotal, List.map_cons, List.sum_cons]
      omega
    · rw [if_neg h]
      simp only [counterTotal, List.map_cons, List.sum_cons] at ih ⊢
      omega

theorem counterBump_get_same (c : List ((String × String) × Nat)) (k : String × String) :
    counterGet (counterBump c k) k = counterGet c k + 1 := by
  induction c with
  | nil => simp [counterBump, counterGet]
  | cons kn rest ih =>
    obtain ⟨k0, n⟩ := kn
    unfold counterBump
    by_cases h : k0 = k
    · rw [if_pos h]
      simp [counterGet, h]
    · rw [if_neg h]
      simp [counterGet, h, ih]

theorem counterBump_get_other (c : List ((String × String) × Nat))
    (k k' : String × String) (hne : k' ≠ k) :
    counterGet (counterBump c k) k' = counterGet c k' := by
  induction c with
  | nil => simp [counterBump, counterGet, Ne.symm hne]
  | cons kn rest ih =>
    obtain ⟨k0, n⟩ := kn
    unfold counterBump
    by_cases h : k0 = k
    · rw [if_pos h]
      have : k0 ≠ k' := by
        rw [h]
        exact Ne.symm hne
      simp [counterGet, this]
    · rw [if_neg h]
      by_cases h2 : k0 = k'
      · simp [counterGet, h2]
      · simp [counterGet, h2, ih]

theorem counterBump_keys (c : List ((String × String) × Nat)) (k : String × String) :
    (counterBump c k).map (·.1)
      = if k ∈ c.map (·.1) then c.map (·.1) else c.map (·.1) ++ [k] := by
  induction c with
  | nil => simp [counterBump]
  | cons kn rest ih =>
    obtain ⟨k0, n⟩ := kn
    unfold counterBump
    by_cases h : k0 = k
    · rw [if_pos h]
      simp [h]
    · rw [if_neg h]
      simp only [List.map_cons, List.mem_cons]
      rw [ih]
      by_cases hm : k ∈ rest.map (·.1)
      · rw [if_pos hm, if_pos (Or.inr hm)]
      · rw [if_neg hm, if_neg (by
          intro hor
          rcases hor with h1 | h2
          · exact h h1.symm
          · exact hm h2)]
        simp

theorem counterBump_keys_nodup {c : List ((String × String) × Nat)}
    (h : (c.map (·.1)).Nodup) (k : String × String) :
    ((counterBump c k).map (·.1)).Nodup := by
  rw [counterBump_keys]
  by_cases hm : k ∈ c.map (·.1)
  · rw [if_pos hm]
    exact h
  · rw [if_neg hm]
    simp [List.nodup_append, h, hm]

theorem counterBump_keys_sub {c : List ((String × String) × Nat)} (k : String × String) :
    ∀ k' ∈ (counterBump c k).map (·.1), k' ∈ c.map (·.1) ∨ k' = k := by
  intro k' hk'
  rw [counterBump_keys] at hk'
  by_cases hm : k ∈ c.map (·.1)
  · rw [if_pos hm] at hk'
    exact Or.inl hk'
  · rw [if_neg hm] at hk'
    rcases List.mem_append.mp hk' with h | h
    · exact Or.inl h
    · exact Or.inr (List.mem_singleton.mp h)

/-- The accumulated counter of a written sequence: total. -/
theorem countAll_total (tus : List TranslationUnit) :
    counterTotal (countAll tus) = tus.length := by
  unfold countAll
  have main : ∀ (l : List TranslationUnit) (c : List ((String × String) × Nat)),
      counterTotal (l.foldl (fun c tu => counterBump c (tagPair tu)) c)
        = counterTotal c + l.length := by
    intro l
    induction l with
    | nil => intro c; simp
    | cons tu rest ih =>
      intro c
      simp only [List.foldl_cons, List.length_cons]
      rw [ih, counterBump_total]
      omega
  rw [main tus []]
  simp [counterTotal]

/-- The accumulated counter of a written sequence: each direction's count is
    the number of records written in it. -/
theorem countAll_get (tus : List TranslationUnit) (p : String × String) :
    counterGet (countAll tus) p = tus.countP (fun tu => decide (tagPair tu = p)) := by
  unfold countAll
  have main : ∀ (l : List TranslationUnit) (c : List ((String × String) × Nat)),
      counterGet (l.foldl (fun c tu => counterBump c (tagPair tu)) c) p
        = counterGet c p + l.countP (fun tu => decide (tagPair tu = p)) := by
    intro l
    induction l with
    | nil => intro c; simp
    | cons tu rest ih =>
      intro c
      simp only [List.foldl_cons]
      rw [ih, List.countP_cons]
      by_cases h : tagPair tu = p
      · rw [h, counterBump_get_same]
        rw [if_pos (by simp : decide (p = p) = true)]
        omega
      · rw [counterBump_get_other c (tagPair tu) p (by exact fun hh => h hh.symm)]
        simp [h]
  rw [main tus []]
  simp [counterGet]

theorem countAll_keys_nodup (tus : List TranslationUnit) :
    ((countAll tus).map (·.1)).Nodup := by
  unfold countAll
  have main : ∀ (l : List TranslationUnit) (c : List ((String × String) × Nat)),
      (c.map (·.1)).Nodup →
      ((l.foldl (fun c tu => counterBump c (tagPair tu)) c).map (·.1)).Nodup := by
    intro l
    induction l with
    | nil => intro c h; simpa using h
    | cons tu rest ih =>
      intro c h
      simp only [List.foldl_cons]
      exact ih _ (counterBump_keys_nodup h _)
  exact main tus [] (by simp)

theorem countAll_keys_from (tus : List TranslationUnit) :
    ∀ k ∈ (countAll tus).map (·.1), ∃ tu ∈ tus, tagPair tu = k := by
  unfold countAll
  have main : ∀ (l : List TranslationUnit) (c : List ((String × String) × Nat)),
      ∀ k ∈ ((l.foldl (fun c tu => counterBump c (tagPair tu)) c).map (·.1)),
        k ∈ c.map (·.1) ∨ ∃ tu ∈ l, tagPair tu = k := by
    intro l
    induction l with
    | nil => intro c k hk; exact Or.inl (by simpa using hk)
    | cons tu rest ih =>
      intro c k hk
      simp only [List.foldl_cons] at hk
      rcases ih _ k hk with h | h
      · rcases counterBump_keys_sub (tagPair tu) k h with h2 | h2
        · exact Or.inl h2
        · exact Or.inr ⟨tu, List.mem_cons_self _ _, h2.symm⟩
      · obtain ⟨u, hu, hu2⟩ := h
        exact Or.inr ⟨u, List.mem_cons_of_mem _ hu, hu2⟩
  intro k hk
  rcases main tus [] k hk with h | h
  · simp at h
  · exact h

/-! ## Reading the footer counter back -/

theorem except_bind_ok {e a b : Type} (x : a) (f : a → Except e b) :
    ((Except.ok x : Except e a) >>= f) = f x := rfl

theorem footerDictInsert_append {acc : List (LanguageDirection × Nat)}
    {d : LanguageDirection} (n : Nat)
    (h : ∀ dn ∈ acc, dn.1.toJsonPair ≠ d.toJsonPair) :
    footerDictInsert acc d n = acc ++ [(d, n)] := by
  induction acc with
  | nil => rfl
  | cons dn rest ih =>
    obtain ⟨d0, n0⟩ := dn
    unfold footerDictInsert
    rw [if_neg (h (d0, n0) (List.mem_cons_self _ _))]
    rw [ih (fun x hx => h x (List.mem_cons_of_mem _ hx))]
    simp

/-- Folding `Footer.from_json`'s entry step over well-tagged, duplicate-free
    counter entries reproduces the counter. -/
theorem footerCounter_fold (c : List ((String × String) × Nat)) :
    ∀ (acc : List (LanguageDirection × Nat)),
    (∀ kn ∈ c, ∃ d, LanguageDirection.fromTuple kn.1.1 kn.1.2 = .ok d
        ∧ d.toJsonPair = kn.1) →
    (∀ kn ∈ c, ∀ dn ∈ acc, dn.1.toJsonPair ≠ kn.1) →
    (c.map (·.1)).Nodup →
    ∃ ctr, List.foldlM footerCounterStep acc (c.map (fun kn =>
        JVal.jarr [JVal.jarr [.jstr kn.1.1, .jstr kn.1.2], .jnum kn.2])) = .ok ctr
      ∧ ctr.map (fun dn => (dn.1.toJsonPair, dn.2))
          = acc.map (fun dn => (dn.1.toJsonPair, dn.2)) ++ c := by
  induction c with
  | nil =>
    intro acc _ _ _
    exact ⟨acc, rfl, by simp⟩
  | cons kn c' ih =>
    intro acc hkeys hdisj hnd
    obtain ⟨⟨src, tgt⟩, n⟩ := kn
    simp only [List.map_cons] at hnd
    obtain ⟨d, hd, hdp⟩ := hkeys _ (List.mem_cons_self _ _)
    replace hd : LanguageDirection.fromTuple src tgt = .ok d := hd
    replace hdp : d.toJsonPair = (src, tgt) := hdp
    simp only [List.map_cons, List.foldlM_cons]
    have hstep : footerCounterStep acc
        (JVal.jarr [JVal.jarr [.jstr src, .jstr tgt], .jnum n])
          = .ok (acc ++ [(d, n)]) := by
      simp only [footerCounterStep]
      rw [hd]
      show Except.ok (footerDictInsert acc d n) = Except.ok (acc ++ [(d, n)])
      rw [footerDictInsert_append n (fun dn hdn => by
        have hne := hdisj _ (List.mem_cons_self _ _) dn hdn
        rw [hdp]
        exact hne)]
    rw [hstep, except_bind_ok]
    have hnd' : (c'.map (·.1)).Nodup := (List.nodup_cons.mp hnd).2
    have hnotin : ((src, tgt) : String × String) ∉ c'.map (·.1) :=
      (List.nodup_cons.mp hnd).1
    obtain ⟨ctr, hfold, hmap⟩ := ih (acc ++ [(d, n)])
      (fun kn' hkn' => hkeys kn' (List.mem_cons_of_mem _ hkn'))
      (by
        intro kn' hkn' dn hdn
        rcases List.mem_append.mp hdn with h | h
        · exact hdisj kn' (List.mem_cons_of_mem _ hkn') dn h
        · have hdn2 := List.mem_singleton.mp h
          subst hdn2
          show d.toJsonPair ≠ kn'.1
          rw [hdp]
          intro hcontra
          exact hnotin (by
            rw [hcontra]
            exact List.mem_map_of_mem (·.1) hkn')
        )
      hnd'
    refine ⟨ctr, hfold, ?_⟩
    rw [hmap]
    simp [hdp]

/-- `Footer.from_json` inverts `Footer.to_json` on the counter part. -/
theorem footerFromJson_toJson (c : List ((String × String) × Nat))
    (props : Option Properties)
    (hkeys : ∀ kn ∈ c, ∃ d, LanguageDirection.fromTuple kn.1.1 kn.1.2 = .ok d
        ∧ d.toJsonPair = kn.1)
    (hnd : (c.map (·.1)).Nodup) :
    ∃ f, footerFromJson (footerToJson c props) = .ok f
      ∧ f.counter.map (fun dn => (dn.1.toJsonPair, dn.2)) = c := by
  obtain ⟨ctr, hfold, hmap⟩ := footerCounter_fold c [] hkeys (by simp) hnd
  have hfold' : footerCounterFromJson (c.map (fun kn =>
      JVal.jarr [JVal.jarr [.jstr kn.1.1, .jstr kn.1.2], .jnum kn.2])) = .ok ctr := hfold
  cases props with
  | none =>
    refine ⟨{ counter := ctr, propsJson := none }, ?_, by simpa using hmap⟩
    simp only [footerToJson, footerFromJson]
    simp only [List.append_nil]
    rw [show jGet [("counter", JVal.jarr (c.map (fun kn =>
        JVal.jarr [JVal.jarr [.jstr kn.1.1, .jstr kn.1.2], .jnum kn.2])))] "counter"
      = some (JVal.jarr (c.map (fun kn =>
        JVal.jarr [JVal.jarr [.jstr kn.1.1, .jstr kn.1.2], .jnum kn.2]))) from rfl]
    rw [hfold']
    rw [show jGet [("counter", JVal.jarr (c.map (fun kn =>
        JVal.jarr [JVal.jarr [.jstr kn.1.1, .jstr kn.1.2], .jnum kn.2])))] "properties"
      = none from rfl]
  | some p =>
    refine ⟨{ counter := ctr,
              propsJson := match p.toJson with
                           | .jobj fs => if fs.isEmpty then none else some (JVal.jobj fs)
                           | _ => none }, ?_, by simpa using hmap⟩
    simp only [footerToJson, footerFromJson]
    rw [show jGet ([("counter", JVal.jarr (c.map (fun kn =>
          JVal.jarr [JVal.jarr [.jstr kn.1.1, .jstr kn.1.2], .jnum kn.2])))]
          ++ [("properties", p.toJson)]) "counter"
      = some (JVal.jarr (c.map (fun kn =>
          JVal.jarr [JVal.jarr [.jstr kn.1.1, .jstr kn.1.2], .jnum kn.2]))) from rfl]
    rw [hfold']
    rw [show jGet ([("counter", JVal.jarr (c.map (fun kn =>
          JVal.jarr [JVal.jarr [.jstr kn.1.1, .jstr kn.1.2], .jnum kn.2])))]
          ++ [("properties", p.toJson)]) "properties" = some p.toJson from rfl]
    rfl

/-- `Counter[key]` on the re-parsed footer agrees with pair-keyed lookup. -/
theorem footerCount_map (ctr : List (LanguageDirection × Nat)) (pj : Option JVal)
    (p : String × String) :
    footerCount { counter := ctr, propsJson := pj } p
      = counterGet (ctr.map (fun dn => (dn.1.toJsonPair, dn.2))) p := by
  unfold footerCount
  induction ctr with
  | nil => rfl
  | cons dn rest ih =>
    obtain ⟨d, n⟩ := dn
    simp only [List.map_cons, List.find?_cons]
    by_cases h : d.toJsonPair = p
    · rw [show decide (d.toJsonPair = p) = true by simp [h]]
      simp [counterGet, h]
    · rw [show decide (d.toJsonPair = p) = false by simp [h]]
      simp only [counterGet, if_neg h]
      exact ih

/-- `get_total_count` on the re-parsed footer agrees with the counter total. -/
theorem footerTotal_map (ctr : List (LanguageDirection × Nat)) (pj : Option JVal) :
    footerTotal { counter := ctr, propsJson := pj }
      = counterTotal (ctr.map (fun dn => (dn.1.toJsonPair, dn.2))) := by
  unfold footerTotal counterTotal
  simp [List.map_map, Function.comp_def]

/-! ## The last line of a line-structured file -/

theorem takeWhileNl_append {xs ys : List Char}
    (hxs : ∀ x ∈ xs, x ≠ '\n') :
    (xs ++ ys).takeWhile (fun c => c ≠ '\n') = xs ++ ys.takeWhile (fun c => c ≠ '\n') := by
  induction xs with
  | nil => simp
  | cons x xs ih =>
    rw [List.cons_append,
        List.takeWhile_cons_of_pos (by simp [hxs x (List.mem_cons_self _ _)])]
    rw [ih (fun a ha => hxs a (List.mem_cons_of_mem _ ha))]
    rw [List.cons_append]

theorem flatten_lines_ends_nl (ls : List String) (hne : ls ≠ []) :
    ∃ B, ((ls.map (fun l => l.data ++ ['\n'])).flatten) = B ++ ['\n'] := by
  induction ls with
  | nil => exact absurd rfl hne
  | cons l rest ih =>
    cases rest with
    | nil =>
      refine ⟨l.data, ?_⟩
      simp
    | cons l2 rest2 =>
      obtain ⟨B, hB⟩ := ih (by simp)
      refine ⟨(l.data ++ ['\n']) ++ B, ?_⟩
      simp only [List.map_cons, List.flatten_cons] at hB ⊢
      rw [hB]
      simp [List.append_assoc]

/-- If the final line is nonempty and newline-free, it is the last complete
    line of the assembled file text. -/
theorem lastLine_fileText (ls : List String) (L : String)
    (hL : ∀ c ∈ L.data, c ≠ '\n') (hne : L.data ≠ []) :
    lastLineSpec (fileText (ls ++ [L])) = L := by
  unfold lastLineSpec fileText
  simp only [String.data]
  rw [List.map_append, List.flatten_append]
  simp only [List.map_cons, List.map_nil, List.flatten_cons, List.flatten_nil,
    List.append_nil]
  rw [show ((ls.map (fun l => l.data ++ ['\n'])).flatten ++ (L.data ++ ['\n'])).reverse
        = '\n' :: (L.data.reverse ++ ((ls.map (fun l => l.data ++ ['\n'])).flatten).reverse)
      by simp]
  rw [List.dropWhile_cons_of_pos (by simp)]
  obtain ⟨c0, t0, hrev⟩ : ∃ c0 t0, L.data.reverse = c0 :: t0 := by
    cases hx : L.data.reverse with
    | nil => exact absurd (by simpa using hx) hne
    | cons c0 t0 => exact ⟨c0, t0, rfl⟩
  have hrevmem : ∀ x ∈ L.data.reverse, x ≠ '\n' := by
    intro x hx
    exact hL x (List.mem_reverse.mp hx)
  have hc0 : c0 ≠ '\n' := hrevmem c0 (by rw [hrev]; exact List.mem_cons_self _ _)
  rw [hrev, List.cons_append, List.dropWhile_cons_of_neg (by simp [hc0])]
  rw [← List.cons_append, ← hrev]
  cases hls : ls with
  | nil =>
    simp only [List.map_nil, List.flatten_nil, List.reverse_nil, List.append_nil]
    rw [List.takeWhile_eq_self_iff.mpr (by
      intro x hx
      simp [hrevmem x hx])]
    simp
  | cons l0 rest =>
    obtain ⟨B, hB⟩ := flatten_lines_ends_nl ls (by rw [hls]; simp)
    rw [← hls, hB]
    rw [show (B ++ ['\n']).reverse = '\n' :: B.reverse by simp]
    rw [takeWhileNl_append hrevmem]
    rw [List.takeWhile_cons_of_neg (by simp)]
    simp

/-! ## The record round trip -/

/-- `TranslationUnit.from_json` inverts `to_json` whenever the unit's language
    tags re-parse to the same `LanguageDirection` (always true for parser-built
    directions, by `from_string` idempotence). -/
theorem tu_fromJson_toJson (tu : TranslationUnit)
    (hdir : LanguageDirection.fromTuple tu.language.source.tag tu.language.target.tag
      = .ok tu.language) :
    TranslationUnit.fromJson tu.toJson = .ok tu := by
  obtain ⟨lang, sen, trans, tuid, cd, chd, props⟩ := tu
  replace hdir : LanguageDirection.fromTuple lang.source.tag lang.target.tag
      = .ok lang := hdir
  cases tuid <;> cases cd <;> cases chd <;> cases props <;>
    simp [TranslationUnit.toJson, TranslationUnit.fromJson, jGet, hdir]

/-- A record line never carries the footer marker. -/
theorem recordLine_not_footer (tu : TranslationUnit) :
    strStartsWith (recordLine tu) footerMarker = false := by
  unfold recordLine
  rw [show tu.toJson = JVal.jobj ([("language",
        JVal.jarr [.jstr tu.language.source.tag, .jstr tu.language.target.tag]),
        ("sentence", JVal.jstr tu.sentence), ("translation", JVal.jstr tu.translation)]
      ++ (match tu.tuid with | none => [] | some s => [("tuid", JVal.jstr s)])
      ++ (match tu.creationDate with
          | none => [] | some s => [("creationDate", JVal.jstr s)])
      ++ (match tu.changeDate with | none => [] | some s => [("changeDate", JVal.jstr s)])
      ++ (match tu.properties with | none => [] | some j => [("properties", j)]))
    from rfl]
  exact dumps_obj_not_footer _

/-- Loading a written record line gives the record back. -/
theorem jtmLoadLine_record (tu : TranslationUnit)
    (hdir : LanguageDirection.fromTuple tu.language.source.tag tu.language.target.tag
      = .ok tu.language) :
    jtmLoadLine (recordLine tu) = .ok tu := by
  unfold jtmLoadLine recordLine
  rw [jloads_jdumps]
  exact tu_fromJson_toJson tu hdir

/-- Iterating a block of record lines closed by any footer-marked line, with
    arbitrary residue behind it: the block's records come first, the marked
    line is skipped. -/
theorem jtmIter_records_marked (tus : List TranslationUnit)
    (hcanon : ∀ tu ∈ tus,
      LanguageDirection.fromTuple tu.language.source.tag tu.language.target.tag
        = .ok tu.language)
    (fl : String) (hfl : strStartsWith fl footerMarker = true) :
    ∀ rest : List String,
      jtmIterLines (tus.map recordLine ++ [fl] ++ rest)
        = (jtmIterLines rest).map (fun l => tus ++ l) := by
  induction tus with
  | nil =>
    intro rest
    simp only [List.map_nil, List.nil_append, List.singleton_append]
    rw [show jtmIterLines (fl :: rest) = jtmIterLines rest by
      show (if strStartsWith fl footerMarker = true then jtmIterLines rest
            else match jtmLoadLine fl with
                 | .error e => .error e
                 | .ok tu =>
                   match jtmIterLines rest with
                   | .error e => .error e
                   | .ok tus => .ok (tu :: tus)) = jtmIterLines rest
      rw [hfl]
      simp]
    cases jtmIterLines rest <;> simp [Except.map]
  | cons tu tus ih =>
    intro rest
    have hdir := hcanon tu (List.mem_cons_self _ _)
    have ih' := ih (fun u hu => hcanon u (List.mem_cons_of_mem _ hu)) rest
    simp only [List.map_cons, List.cons_append]
    rw [show jtmIterLines (recordLine tu :: (tus.map recordLine ++ [fl] ++ rest))
        = match jtmLoadLine (recordLine tu) with
          | .error e => .error e
          | .ok u =>
            match jtmIterLines (tus.map recordLine ++ [fl] ++ rest) with
            | .error e => .error e
            | .ok us => .ok (u :: us) by
      show (if strStartsWith (recordLine tu) footerMarker = true then
              jtmIterLines (tus.map recordLine ++ [fl] ++ rest)
            else match jtmLoadLine (recordLine tu) with
                 | .error e => .error e
                 | .ok u =>
                   match jtmIterLines (tus.map recordLine ++ [fl] ++ rest) with
                   | .error e => .error e
                   | .ok us => .ok (u :: us))
          = match jtmLoadLine (recordLine tu) with
            | .error e => .error e
            | .ok u =>
              match jtmIterLines (tus.map recordLine ++ [fl] ++ rest) with
              | .error e => .error e
              | .ok us => .ok (u :: us)
      rw [recordLine_not_footer]
      simp]
    rw [jtmLoadLine_record tu hdir, ih']
    cases jtmIterLines rest <;> simp [Except.map]

/-- The same for a written block: its footer line is the marked line. -/
theorem jtmIter_written_append (tus : List TranslationUnit)
    (props : Option Properties)
    (hcanon : ∀ tu ∈ tus,
      LanguageDirection.fromTuple tu.language.source.tag tu.language.target.tag
        = .ok tu.language)
    (rest : List String) :
    jtmIterLines (jtmWrittenLines tus props ++ rest)
      = (jtmIterLines rest).map (fun l => tus ++ l) := by
  unfold jtmWrittenLines
  rw [show tus.map recordLine ++ [footerLineStr (countAll tus) props]
        = tus.map recordLine ++ [footerLineStr (countAll tus) props] from rfl]
  exact jtmIter_records_marked tus hcanon _ (footerLine_starts _ _) rest

/-- Reading back exactly one written block. -/
theorem jtmIter_written (tus : List TranslationUnit) (props : Option Properties)
    (hcanon : ∀ tu ∈ tus,
      LanguageDirection.fromTuple tu.language.source.tag tu.language.target.tag
        = .ok tu.language) :
    jtmIterLines (jtmWrittenLines tus props) = .ok tus := by
  have h := jtmIter_written_append tus props hcanon []
  rw [List.append_nil] at h
  rw [h]
  simp [jtmIterLines, Except.map]

/-- The reader loop is exactly "parse the non-footer lines in order". -/
theorem jtmIter_refines (lines : List String) :
    jtmIterLines lines = jtmIterLinesSpec lines := by
  induction lines with
  | nil => rfl
  | cons line rest ih =>
    unfold jtmIterLinesSpec at ih ⊢
    cases hb : strStartsWith line footerMarker with
    | true =>
      rw [show jtmIterLines (line :: rest) = jtmIterLines rest by
        show (if strStartsWith line footerMarker = true then jtmIterLines rest
              else match jtmLoadLine line with
                   | .error e => .error e
                   | .ok tu =>
                     match jtmIterLines rest with
                     | .error e => .error e
                     | .ok tus => .ok (tu :: tus)) = jtmIterLines rest
        rw [hb]
        simp]
      rw [List.filter_cons_of_neg (by simp [hb])]
      exact ih
    | false =>
      rw [show jtmIterLines (line :: rest)
          = (match jtmLoadLine line with
             | .error e => .error e
             | .ok tu =>
               match jtmIterLines rest with
               | .error e => .error e
               | .ok tus => .ok (tu :: tus)) by
        show (if strStartsWith line footerMarker = true then jtmIterLines rest
              else match jtmLoadLine line with
                   | .error e => .error e
                   | .ok tu =>
                     match jtmIterLines rest with
                     | .error e => .error e
                     | .ok tus => .ok (tu :: tus))
            = (match jtmLoadLine line with
               | .error e => .error e
               | .ok tu =>
                 match jtmIterLines rest with
                 | .error e => .error e
                 | .ok tus => .ok (tu :: tus))
        rw [hb]
        simp]
      rw [List.filter_cons_of_pos (by simp [hb]), List.mapM_cons]
      cases hload : jtmLoadLine line with
      | error e => rfl
      | ok tu =>
        rw [ih]
        cases (rest.filter (fun l => !strStartsWith l footerMarker)).mapM jtmLoadLine with
        | error e => rfl
        | ok tus => rfl

/-! ## The remaining claims -/

/-- C1: writing a sequence of records through the LineFormat writer and closing
    it, then reading the file back, returns the same records in order; the
    appended footer's per-direction counts are the true per-direction record
    counts, its total is the number of records, and the tail-only footer parse
    of the file recovers exactly those counts.  (The language tags must
    re-parse to the written directions; parser-produced tags always do, by
    `from_string` idempotence.) -/
theorem C1_jtm_round_trip (tus : List TranslationUnit) (props : Option Properties)
    (hcanon : ∀ tu ∈ tus,
      LanguageDirection.fromTuple tu.language.source.tag tu.language.target.tag
        = .ok tu.language) :
    jtmIterLines (jtmWrittenLines tus props) = .ok tus ∧
    ∃ f, jtmParseFooterOfFile (fileText (jtmWrittenLines tus props)) = .ok f
      ∧ (∀ p : String × String,
          footerCount f p = tus.countP (fun tu => decide (tagPair tu = p)))
      ∧ footerTotal f = tus.length := by
  refine ⟨jtmIter_written tus props hcanon, ?_⟩
  have hlast : lastLineSpec (fileText (jtmWrittenLines tus props))
      = footerLineStr (countAll tus) props := by
    unfold jtmWrittenLines
    rw [show tus.map recordLine ++ [footerLineStr (countAll tus) props]
          = tus.map recordLine ++ [footerLineStr (countAll tus) props] from rfl]
    apply lastLine_fileText
    · intro c hc
      rw [show (footerLineStr (countAll tus) props).data
            = footerMarker.data ++ (jdumps (footerToJson (countAll tus) props)).data by
        unfold footerLineStr
        exact String.data_append _ _] at hc
      rcases List.mem_append.mp hc with h | h
      · revert h
        have : ∀ c ∈ footerMarker.data, c ≠ '\n' := by decide
        exact this c
      · exact jdumps_no_newline_val _ c h
    · rw [show (footerLineStr (countAll tus) props).data
            = footerMarker.data ++ (jdumps (footerToJson (countAll tus) props)).data by
        unfold footerLineStr
        exact String.data_append _ _]
      rw [show footerMarker.data = '.' :: ".footer".data.tail from rfl]
      simp
  have hkeys : ∀ kn ∈ countAll tus,
      ∃ d, LanguageDirection.fromTuple kn.1.1 kn.1.2 = .ok d
        ∧ d.toJsonPair = kn.1 := by
    intro kn hkn
    obtain ⟨tu, htu, htp⟩ := countAll_keys_from tus kn.1 (List.mem_map_of_mem (·.1) hkn)
    refine ⟨tu.language, ?_, ?_⟩
    · rw [show kn.1.1 = tu.language.source.tag by rw [← htp]; rfl,
          show kn.1.2 = tu.language.target.tag by rw [← htp]; rfl]
      exact hcanon tu htu
    · rw [← htp]
      rfl
  obtain ⟨f, hf, hfmap⟩ := footerFromJson_toJson (countAll tus) props hkeys
    (countAll_keys_nodup tus)
  obtain ⟨ctr, pj⟩ := f
  replace hfmap : ctr.map (fun dn => (dn.1.toJsonPair, dn.2)) = countAll tus := hfmap
  refine ⟨⟨ctr, pj⟩, ?_, ?_, ?_⟩
  · unfold jtmParseFooterOfFile
    rw [tail1_eq_lastLine, hlast]
    unfold footerParse
    rw [footerParseLine_ok]
    exact hf
  · intro p
    rw [footerCount_map, hfmap, countAll_get]
  · rw [footerTotal_map, hfmap, countAll_total]

/-- C1 at a concrete record: the hypothesis holds for `tuHello`, and the
    round trip follows by the theorem. -/
theorem C1_jtm_round_trip_witness :
    (∀ tu ∈ [tuHello],
      LanguageDirection.fromTuple tu.language.source.tag tu.language.target.tag
        = .ok tu.language) ∧
    (jtmIterLines (jtmWrittenLines [tuHello] none) = .ok [tuHello] ∧
     ∃ f, jtmParseFooterOfFile (fileText (jtmWrittenLines [tuHello] none)) = .ok f
       ∧ (∀ p : String × String,
           footerCount f p = [tuHello].countP (fun tu => decide (tagPair tu = p)))
       ∧ footerTotal f = [tuHello].length) := by
  have hc : ∀ tu ∈ [tuHello],
      LanguageDirection.fromTuple tu.language.source.tag tu.language.target.tag
        = .ok tu.language := by
    intro tu htu
    have := List.mem_singleton.mp htu
    subst this
    rfl
  exact ⟨hc, C1_jtm_round_trip [tuHello] none hc⟩

/-- C8: however the writer's scope exits (clean or with an exception) and
    however many records were written, an open LineFormat writer appends
    exactly one footer line — which the footer parser accepts — and an open
    TMX writer emits the header (with no declared source tag if nothing was
    written) and the closing body and root tags. -/
theorem C8_exit_always_closes :
    (∀ (lines : List String) (counter : List ((String × String) × Nat))
        (props : Option Properties) (exc : Option PyErr),
      jtmWriterExit ⟨some lines, counter, props⟩ exc
        = lines ++ [footerLineStr counter props]) ∧
    (∀ (counter : List ((String × String) × Nat)) (props : Option Properties),
      footerParseLine (footerLineStr counter props) = .ok (footerToJson counter props)) ∧
    (∀ (content : String) (props : Option Properties) (exc : Option PyErr),
      tmxWriterExit ⟨some content, false, props⟩ exc
        = some ((content ++ tmxHeaderText none props) ++ "  </body>\n</tmx>\n")) ∧
    (∀ (content : String) (props : Option Properties) (exc : Option PyErr),
      tmxWriterExit ⟨some content, true, props⟩ exc
        = some (content ++ "  </body>\n</tmx>\n")) :=
  ⟨fun _ _ _ _ => rfl, footerParseLine_ok, fun _ _ _ => rfl, fun _ _ _ => rfl⟩

/-- C10: the reader drops every footer-marked line wherever it occurs and
    parses exactly the remaining lines in order; in particular two written
    corpora concatenated into one file read back as the concatenation of their
    records, with both footer lines silently skipped. -/
theorem C10_reader_skips_all_footers :
    (∀ lines : List String, jtmIterLines lines = jtmIterLinesSpec lines) ∧
    (∀ (tus1 tus2 : List TranslationUnit) (p1 p2 : Option Properties),
      (∀ tu ∈ tus1,
        LanguageDirection.fromTuple tu.language.source.tag tu.language.target.tag
          = .ok tu.language) →
      (∀ tu ∈ tus2,
        LanguageDirection.fromTuple tu.language.source.tag tu.language.target.tag
          = .ok tu.language) →
      jtmIterLines (jtmWrittenLines tus1 p1 ++ jtmWrittenLines tus2 p2)
        = .ok (tus1 ++ tus2)) := by
  refine ⟨jtmIter_refines, ?_⟩
  intro tus1 tus2 p1 p2 h1 h2
  rw [jtmIter_written_append tus1 p1 h1, jtmIter_written tus2 p2 h2]
  rfl

/-- C10 at a concrete pair of one-record corpora: both hypotheses hold for
    `tuHello`, and the concatenated file reads back as both records. -/
theorem C10_reader_skips_all_footers_witness :
    (∀ tu ∈ [tuHello],
      LanguageDirection.fromTuple tu.language.source.tag tu.language.target.tag
        = .ok tu.language) ∧
    jtmIterLines (jtmWrittenLines [tuHello] none ++ jtmWrittenLines [tuHello] none)
      = .ok [tuHello, tuHello] := by
  have hc : ∀ tu ∈ [tuHello],
      LanguageDirection.fromTuple tu.language.source.tag tu.language.target.tag
        = .ok tu.language := by
    intro tu htu
    have := List.mem_singleton.mp htu
    subst this
    rfl
  exact ⟨hc, C10_reader_skips_all_footers.2 [tuHello] [tuHello] none none hc hc⟩

end Larakit
